import Mathlib

/-!
Verification of the apexlint line-oriented static analyzer.

The development shallowly embeds the analyzer's core:
the regular-expression transforms of retools.py (not_string, comment),
the rule machinery of base.py (Validator, Location, Message), the line
scanner of match.py (NOQA, lines) and the exit-status logic of
__main__.py (lint, main).

Regular expressions are embedded as an explicit syntax tree (Re) covering
exactly the constructs the analyzer's patterns use, together with an
executable backtracking matcher that mirrors Python's re module semantics:
leftmost starting position, alternation tried left to right, greedy and
lazy repetition orders, named capture groups where the last binding wins,
negative lookahead, and repetition that never repeats an empty body match.
The matcher is fuel-indexed; every recursive call decreases the fuel, and
a fuel of (length + 1) * (size + 1) is proved sufficient (mat_iff_sem).
-/

namespace Apexlint

/-- The single-quote character, written by code point to keep source lines
free of quote characters. -/
def qc : Char := Char.ofNat 39

/-- The backslash character. -/
def bsl : Char := Char.ofNat 92

/-- The newline character. -/
def nlc : Char := Char.ofNat 10

/-- Regular-expression syntax trees for the pattern subset used by the
analyzer: single-character predicates (covering literal characters,
case-insensitive literals and character classes), concatenation,
alternation, greedy or lazy repetition, named groups, negative lookahead
and the line-start anchor. -/
inductive Re : Type
  | eps : Re
  | cpred : (Char → Bool) → Re
  | seq : Re → Re → Re
  | alt : Re → Re → Re
  | star : Re → Bool → Re
  | group : String → Re → Re
  | lookNeg : Re → Re
  | bol : Re

/-- Structural size of a pattern, used to compute sufficient matcher fuel. -/
def Re.size : Re → Nat
  | .eps => 1
  | .cpred _ => 1
  | .seq a b => a.size + b.size + 1
  | .alt a b => a.size + b.size + 1
  | .star r _ => r.size + 1
  | .group _ r => r.size + 1
  | .lookNeg r => r.size + 1
  | .bol => 1

/-- Named-group bindings accumulated during a match; the most recent
binding of a name is listed first and shadows older ones, matching
Python's last-repetition-wins semantics. -/
abbrev Groups := List (String × Nat × Nat)

/-- Backtracking matcher. mat n r l p g returns, in Python's exploration
order, the list of (end position, group bindings) of every way r can match
a segment of l starting at position p, given fuel n and inherited bindings
g. Alternation lists the left branch first; greedy repetition lists longer
iterations first and lazy repetition the empty iteration first; repetition
never repeats an empty body match (Python's empty-match rule), expressed
by the progress guard on the iterated position. -/
def mat : Nat → Re → List Char → Nat → Groups → List (Nat × Groups)
  | 0, _, _, _, _ => []
  | Nat.succ n, r, l, p, g =>
    match r with
    | .eps => [(p, g)]
    | .bol => if p = 0 then [(p, g)] else []
    | .cpred f =>
        match l[p]? with
        | some c => if f c then [(p + 1, g)] else []
        | none => []
    | .seq a b => (mat n a l p g).flatMap (fun pg => mat n b l pg.1 pg.2)
    | .alt a b => mat n a l p g ++ mat n b l p g
    | .star r1 lz =>
        let step := (mat n r1 l p g).flatMap (fun pg =>
          if p < pg.1 ∧ pg.1 ≤ l.length then mat n (.star r1 lz) l pg.1 pg.2 else [])
        if lz then (p, g) :: step else step ++ [(p, g)]
    | .group nm r1 => (mat n r1 l p g).map (fun pg => (pg.1, (nm, p, pg.1) :: pg.2))
    | .lookNeg r1 => if (mat n r1 l p g).isEmpty then [(p, g)] else []

/-- Names of the capture groups syntactically present in a pattern;
Python raises IndexError when a match is asked about any other name. -/
def Re.groupNames : Re → List String
  | .eps => []
  | .cpred _ => []
  | .seq a b => a.groupNames ++ b.groupNames
  | .alt a b => a.groupNames ++ b.groupNames
  | .star r _ => r.groupNames
  | .group nm r => nm :: r.groupNames
  | .lookNeg r => r.groupNames
  | .bol => []

/-- Fuel sufficient for matching r anywhere in l (proved by mat_iff_sem). -/
def fuelFor (r : Re) (l : List Char) : Nat := (l.length + 1) * (r.size + 1)

/-- All matches of r at exactly position p of l, with sufficient fuel. -/
def matRoot (r : Re) (l : List Char) (p : Nat) : List (Nat × Groups) :=
  mat (fuelFor r l) r l p []

/-- A match object: overall span, group bindings, and the set of group
names defined by the pattern (mirroring Python's re.Match). -/
structure RMatch where
  start : Nat
  stop : Nat
  groups : Groups
  names : List String
  deriving DecidableEq

/-- Python Match.span(name): none when the pattern defines no such group
(IndexError), some none when the group exists but did not participate in
the match (Python reports (-1, -1)), and some (some span) otherwise. -/
def RMatch.spanOf (m : RMatch) (nm : String) : Option (Option (Nat × Nat)) :=
  if nm ∈ m.names then
    some ((m.groups.find? (fun e => e.1 = nm)).map (fun e => e.2))
  else none

/-- Python re.search restricted to starting positions at least pos:
the leftmost starting position wins, and at a given position the
backtracking order decides (first element of matRoot). -/
def searchFromPos (r : Re) (l : List Char) (pos : Nat) : Option RMatch :=
  (List.range (l.length + 1)).findSome? (fun p =>
    if p < pos then none
    else (matRoot r l p).head?.map (fun qg => RMatch.mk p qg.1 qg.2 r.groupNames))

/-- Python re.search: leftmost match of r in l. -/
def reSearch (r : Re) (l : List Char) : Option RMatch := searchFromPos r l 0

/-- Whether re.search finds any match. -/
def searchHit (r : Re) (l : List Char) : Bool := (reSearch r l).isSome

/-- Python re.finditer: repeatedly search from the end of the previous
match, advancing one extra position after an empty match. The fuel bounds
the number of matches, which is at most length + 1. -/
def finditerAux : Nat → Re → List Char → Nat → List RMatch
  | 0, _, _, _ => []
  | Nat.succ n, r, l, pos =>
    match searchFromPos r l pos with
    | none => []
    | some m => m :: finditerAux n r l (if m.start < m.stop then m.stop else m.stop + 1)

/-- All non-overlapping matches of r in l, leftmost first. -/
def finditer (r : Re) (l : List Char) : List RMatch :=
  finditerAux (l.length + 2) r l 0

/-- Pattern matching one literal character. -/
def Re.ch (c : Char) : Re := .cpred (fun x => x = c)

/-- Pattern matching one literal character ignoring case (re.IGNORECASE). -/
def Re.chCI (c : Char) : Re := .cpred (fun x => x.toLower = c.toLower)

/-- Literal string pattern: what re.escape of a string compiles to. -/
def Re.strLit (s : List Char) : Re :=
  s.foldr (fun c acc => Re.seq (Re.ch c) acc) Re.eps

/-- Case-insensitive literal string pattern. -/
def Re.strLitCI (s : List Char) : Re :=
  s.foldr (fun c acc => Re.seq (Re.chCI c) acc) Re.eps

/-- The dot: any character but newline (no re.DOTALL is used anywhere). -/
def dotC : Re := .cpred (fun x => ¬ x = nlc)

/-- The character class excluding the single quote, written [^'] in
retools.not_string. -/
def notQuoteC : Re := .cpred (fun x => ¬ x = qc)

/-- One character of a single-quoted string body in retools.not_string:
an escaped backslash, an escaped quote, or any character that is neither
a quote nor a dangling backslash. -/
def strBodyC : Re :=
  .alt (.seq (.ch bsl) (.ch bsl))
    (.alt (.seq (.ch bsl) (.ch qc))
      (.cpred (fun x => ¬ x = qc ∧ ¬ x = bsl)))

/-- One complete single-quoted string with its quote-free lead-in, the
repeated unit of retools.not_string's anchored quote-pair loop. -/
def qString : Re :=
  .seq (.star notQuoteC false)
    (.seq (.ch qc) (.seq (.star strBodyC false) (.ch qc)))

/-- retools.not_string: prefix the pattern with an anchored run of
complete single-quoted strings followed by a quote-free run, so the
pattern can only match outside the strings counted from line start. -/
def notString (r : Re) : Re :=
  .seq .bol (.seq (.star qString false) (.seq (.star notQuoteC false) r))

/-- Block-comment shape of retools.comment: a /* opener, a lazy run of
characters that are not the real closer (a star not followed by a slash,
or any non-star), the target wrapped in named group c, a lazy run of
anything, and the closing mark. -/
def commentBlock (r : Re) : Re :=
  .seq (Re.strLit "/*".toList)
    (.seq (.star (.alt (.seq (Re.ch '*') (.lookNeg (Re.ch '/')))
                       (.cpred (fun x => ¬ x = '*'))) true)
      (.seq (.group "c" r)
        (.seq (.star dotC true) (Re.strLit "*/".toList))))

/-- Line-comment shape of retools.comment: a // opener, a lazy run of
anything, then the target wrapped in named group cpp. -/
def commentLine (r : Re) : Re :=
  .seq (Re.strLit "//".toList) (.seq (.star dotC true) (.group "cpp" r))

/-- retools.comment: the two comment shapes, wrapped by not_string so a
comment inside a string literal never matches. -/
def commentRe (r : Re) : Re :=
  notString (.alt (commentBlock r) (commentLine r))

/-- match.py's NOQA pattern: the case-insensitive token noqa inside a
comment (the IGNORECASE flag of the inner pattern is inherited by the
composed pattern; it only affects the letters of the token itself, the
comment and string punctuation being case-less). -/
def NOQA : Re := commentRe (Re.strLitCI "noqa".toList)

/-- A path fed to the analyzer: either the standard-input pseudo-path of
pathtools.StdIn, or an ordinary file identified here by its final
component (the filename), which is all that the single-component glob
patterns of the rules ever examine. -/
inductive ApexPath : Type
  | stdin : ApexPath
  | file : String → ApexPath
  deriving DecidableEq

/-- pathtools.StdIn.typeof: whether the path is the stdin pseudo-path. -/
def ApexPath.isStdIn : ApexPath → Bool
  | .stdin => true
  | .file _ => false

/-- The filename the glob patterns are matched against, and the string
form used in rendered locations (str(StdIn) is the marker in angle
brackets). -/
def ApexPath.fname : ApexPath → String
  | .stdin => "<stdin>"
  | .file n => n

/-- fnmatch-style glob matching as used by pathlib.PurePath.match for the
single-component patterns the rules declare: a star matches any run of
characters, a question mark any single character, anything else matches
itself (character classes are not used by the analyzer and not modeled). -/
def globMatch : List Char → List Char → Bool
  | [], input => input.isEmpty
  | '*' :: ps, input => input.tails.any (fun s => globMatch ps s)
  | '?' :: ps, input =>
      match input with
      | [] => false
      | _ :: cs => globMatch ps cs
  | c :: ps, input =>
      match input with
      | [] => false
      | d :: cs => c = d && globMatch ps cs

/-- base.Validator: a compiled invalid pattern, glob filename filters, an
optional suppress pattern, and the docstring the message is derived from. -/
structure Validator where
  invalid : Re
  filenames : List String
  suppress : Option Re
  doc : String

/-- base.Validator.enabled: stdin, or (the filter list is truthy AND some
declared glob matches the path); Python operator precedence binds the and
tighter than the or. -/
def Validator.enabled (v : Validator) (path : ApexPath) : Bool :=
  path.isStdIn || (!v.filenames.isEmpty && v.filenames.any
    (fun pat => globMatch pat.toList path.fname.toList))

/-- base.Validator.filter: the validators that pass the stdin-or-enabled
test for the given path, in their original order. -/
def Validator.filterApplicable (vs : List Validator) (path : ApexPath) : List Validator :=
  vs.filter (fun v => path.isStdIn || v.enabled path)

/-- Python str.split(sep, 1) on the newline character: the first line and,
when a newline occurs, the remainder. -/
def splitOnceNl (s : String) : String × Option String :=
  let l := s.toList
  let pre := l.takeWhile (fun c => ¬ c = nlc)
  match l.drop pre.length with
  | [] => (String.mk pre, none)
  | _ :: tail => (String.mk pre, some (String.mk tail))

/-- Whether a line holds any non-whitespace character (the predicate
textwrap.indent uses to decide which lines receive the prefix). -/
def hasNonWS (l : List Char) : Bool := l.any (fun c => !c.isWhitespace)

/-- Split a character list into its newline-separated lines, the way
Python str.split on a newline does: n newlines give n + 1 lines. -/
def splitLines : List Char → List (List Char)
  | [] => [[]]
  | c :: rest =>
    let r := splitLines rest
    if c = nlc then [] :: r
    else
      match r with
      | [] => [[c]]
      | h :: t => (c :: h) :: t

/-- Join lines with newline separators, the inverse of splitLines. -/
def joinNl : List (List Char) → List Char
  | [] => []
  | [l] => l
  | l :: ls => l ++ nlc :: joinNl ls

/-- textwrap.indent: add the prefix to every line that is not pure
whitespace. -/
def pyIndent (pre : String) (text : String) : String :=
  String.mk (joinNl
    ((splitLines text.toList).map
      (fun l => if hasNonWS l then pre.toList ++ l else l)))

/-- The whitespace prefix of a line. -/
def wsPre (l : List Char) : List Char := l.takeWhile (fun c => c.isWhitespace)

/-- Longest common prefix of two character lists. -/
def commonPre : List Char → List Char → List Char
  | [], _ => []
  | _, [] => []
  | x :: xs, y :: ys => if x = y then x :: commonPre xs ys else []

/-- textwrap.dedent: remove the longest common whitespace margin of the
non-blank lines from every line that starts with it. -/
def pyDedent (text : String) : String :=
  let ls := splitLines text.toList
  match ls.filter (fun l => hasNonWS l) with
  | [] => text
  | m0 :: rest =>
      let margin := rest.foldl (fun acc l => commonPre acc (wsPre l)) (wsPre m0)
      String.mk (List.intercalate [nlc]
        (ls.map (fun l => if margin.isPrefixOf l then l.drop margin.length else l)))

/-- Python str.strip: drop leading and trailing whitespace. -/
def pyStrip (s : String) : String :=
  String.mk (((s.toList.dropWhile Char.isWhitespace).reverse.dropWhile
    Char.isWhitespace).reverse)

/-- base.Validator.message: empty for a missing docstring, otherwise the
first docstring line followed by the dedented remainder, stripped.
The docstring is a format template receiving the match and source line;
the analyzer's docstrings contain no replacement fields, for which
str.format is the identity, as modeled here. -/
def Validator.message (v : Validator) : String :=
  if v.doc = "" then ""
  else
    let bits := splitOnceNl v.doc
    let msg := match bits.2 with
      | some rest => bits.1 ++ String.mk [nlc] ++ pyDedent rest
      | none => bits.1
    pyStrip msg

/-- base.Error: a match of the invalid pattern paired with the formatted
message. -/
structure Error where
  mtch : RMatch
  message : String
  deriving DecidableEq

/-- Whether the validator's suppress pattern exists and matches the line. -/
def Validator.suppressHit (v : Validator) (line : String) : Bool :=
  match v.suppress with
  | some sp => searchHit sp line.toList
  | none => false

/-- base.Validator.errors: nothing when suppression is on and the
declared suppress pattern matches the line; otherwise one Error per
non-overlapping match of the invalid pattern, in finditer order. -/
def Validator.errors (v : Validator) (line : String) (sup : Bool) : List Error :=
  if sup && v.suppressHit line then []
  else (finditer v.invalid line.toList).map (fun m => Error.mk m v.message)

/-- base.Location: line number, match object and path of one diagnostic. -/
structure Location where
  line : Nat
  mtch : RMatch
  path : ApexPath
  deriving DecidableEq

/-- base.Location.len: the extent of the cursor group when it matched,
zero when the pattern has no cursor group (IndexError) and zero when the
group did not participate (Python's (-1, -1) span has zero extent). -/
def Location.len (loc : Location) : Nat :=
  match loc.mtch.spanOf "cursor" with
  | none => 0
  | some none => 0
  | some (some se) => se.2 - se.1

/-- base.Location.column: the start of the cursor group when the pattern
has one (-1 when it did not participate, as Python reports), else the
start of the whole match. -/
def Location.column (loc : Location) : Int :=
  match loc.mtch.spanOf "cursor" with
  | none => (loc.mtch.start : Int)
  | some none => -1
  | some (some se) => (se.1 : Int)

/-- base.Location.arrow: column spaces, a caret, then len - 1 tildes
(string repetition by a negative count is empty, hence the clamps). -/
def Location.arrow (loc : Location) : String :=
  String.mk (List.replicate loc.column.toNat ' ') ++ "^"
    ++ String.mk (List.replicate (loc.len - 1) '~')

/-- str(Location): filename, line and column joined by colons. -/
def Location.str (loc : Location) : String :=
  loc.path.fname ++ ":" ++ toString loc.line ++ ":" ++ toString loc.column

/-- terminfo.TermInfo: the escape strings the renderer interleaves. -/
structure TermInfo where
  BOLD : String
  BOLD_RED : String
  GRAY : String
  RED : String
  RESET : String

/-- terminfo.DumbTerm: every escape is the empty string. -/
def DumbTerm : TermInfo := TermInfo.mk "" "" "" "" ""

/-- terminfo.AnsiTerm: the ANSI escapes. -/
def AnsiTerm : TermInfo :=
  TermInfo.mk "\x1b[1m" "\x1b[1;31m" "\x1b[0;33m" "\x1b[0;31m" "\x1b[0m"

/-- base.Message: a location, the full message text, and the stripped
source line the match was found in. -/
structure Message where
  location : Location
  message : String
  source : String
  deriving DecidableEq

/-- base.Message.split_message: summary line and optional description. -/
def Message.splitMessage (msg : Message) : String × Option String :=
  splitOnceNl msg.message

/-- base.Message.render: the location header with the summary, then for
positive verbosity the indented description, then for non-negative
verbosity the indented source line with the arrow underneath. A missing
term argument defaults to the dumb terminal. -/
def Message.render (msg : Message) (ind : Nat) (term : Option TermInfo)
    (verbose : Int) : String :=
  let t := term.getD DumbTerm
  let bits := msg.splitMessage
  let out := t.BOLD ++ msg.location.str ++ ": " ++ t.BOLD_RED ++ "error:"
    ++ t.RESET ++ " " ++ bits.1
  let out := match bits.2 with
    | some desc =>
        if verbose > 0 then
          out ++ String.mk [nlc] ++ t.GRAY
            ++ pyIndent (String.mk (List.replicate (ind * 2) ' ')) desc ++ t.RESET
        else out
    | none => out
  if verbose ≥ 0 then
    out ++ String.mk [nlc] ++ pyIndent (String.mk (List.replicate ind ' '))
      (msg.source ++ String.mk [nlc] ++ t.RED ++ msg.location.arrow ++ t.RESET)
  else out

/-- Python str.rstrip applied with the newline character, as match.lines
applies to every incoming line. -/
def rstripNl (s : String) : String :=
  String.mk ((s.toList.reverse.dropWhile (fun c => c = nlc)).reverse)

/-- match.lines: filter the validators down to those applicable to the
path and stop early when none is; otherwise enumerate the
newline-stripped lines from 1, skip a line entirely when suppression is
on and NOQA matches it, and otherwise iterate over the validators
parameter (the unfiltered list, exactly as the source does), collecting
one Message per error. -/
def linesScan (ls : List String) (path : ApexPath) (sup : Bool)
    (validators : List Validator) : List Message :=
  let enabled := Validator.filterApplicable validators path
  if enabled.isEmpty then []
  else
    ((ls.map rstripNl).enumFrom 1).flatMap (fun nline =>
      if sup && searchHit NOQA nline.2.toList then []
      else validators.flatMap (fun v =>
        (v.errors nline.2 sup).map (fun err =>
          Message.mk (Location.mk nline.1 err.mtch path) err.message nline.2)))

/-- __main__.lint's collection step: the renderer stream interleaves
operational errors (left) and rendered findings (right); lint appends
each to its own list in stream order. -/
def lintSplit {E : Type} (results : List (E ⊕ String)) : List String × List E :=
  (results.filterMap (fun r => r.getRight?), results.filterMap (fun r => r.getLeft?))

/-- __main__.main's exit status: 1 when any finding was printed, else 2
when any operational error occurred, else 0. -/
def mainExit {E : Type} (results : List (E ⊕ String)) : Nat :=
  let ms := (lintSplit results).1
  let es := (lintSplit results).2
  if !ms.isEmpty then 1
  else if !es.isEmpty then 2
  else 0

/-- Declarative matching semantics: Sem r l p q says pattern r can match
the segment of l between positions p and q. Repetition is the reflexive
transitive closure of one in-bounds, progressing body match, mirroring
the matcher's empty-repetition guard; laziness and grouping are
irrelevant to which segments match. -/
def Sem : Re → List Char → Nat → Nat → Prop
  | .eps, _, p, q => q = p
  | .bol, _, p, q => q = p ∧ p = 0
  | .cpred f, l, p, q => q = p + 1 ∧ ∃ c, l[p]? = some c ∧ f c = true
  | .seq a b, l, p, q => ∃ m, Sem a l p m ∧ Sem b l m q
  | .alt a b, l, p, q => Sem a l p q ∨ Sem b l p q
  | .star r _, l, p, q =>
      Relation.ReflTransGen (fun x y => x < y ∧ y ≤ l.length ∧ Sem r l x y) p q
  | .group _ r, l, p, q => Sem r l p q
  | .lookNeg r, l, p, q => q = p ∧ ∀ m, ¬ Sem r l p m

/-- Every match the engine reports ends at or after its start and within
the line. -/
theorem mat_bounds (n : Nat) : ∀ (r : Re) (l : List Char) (p : Nat) (g : Groups),
    p ≤ l.length → ∀ q g2, (q, g2) ∈ mat n r l p g → p ≤ q ∧ q ≤ l.length := by
  induction n with
  | zero => intro r l p g _ q g2 h; simp [mat] at h
  | succ n ih =>
    intro r l p g hp q g2 h
    cases r with
    | eps => simp [mat] at h; omega
    | bol =>
      simp only [mat] at h
      split at h <;> simp at h
      omega
    | cpred f =>
      simp only [mat] at h
      cases hc : l[p]? with
      | none => rw [hc] at h; simp at h
      | some c =>
        rw [hc] at h
        have hlt : p < l.length := by
          have := List.getElem?_eq_some_iff.mp hc
          exact this.1
        split at h <;> simp at h
        omega
    | seq a b =>
      simp only [mat, List.mem_flatMap] at h
      obtain ⟨pg, hpg, hb⟩ := h
      have h1 := ih a l p g hp pg.1 pg.2 hpg
      have h2 := ih b l pg.1 pg.2 h1.2 q g2 hb
      omega
    | alt a b =>
      simp only [mat, List.mem_append] at h
      rcases h with h | h
      · exact ih a l p g hp q g2 h
      · exact ih b l p g hp q g2 h
    | star r1 lz =>
      simp only [mat] at h
      have hstep : ∀ x y, (x, y) ∈ (mat n r1 l p g).flatMap (fun pg =>
          if p < pg.1 ∧ pg.1 ≤ l.length then mat n (.star r1 lz) l pg.1 pg.2 else []) →
          p ≤ x ∧ x ≤ l.length := by
        intro x y hx
        simp only [List.mem_flatMap] at hx
        obtain ⟨pg, _, hx2⟩ := hx
        split at hx2
        · next hcond =>
          have := ih (.star r1 lz) l pg.1 pg.2 hcond.2 x y hx2
          omega
        · simp at hx2
      split at h
      · rcases List.mem_cons.mp h with h | h
        · simp at h; omega
        · exact hstep q g2 h
      · rcases List.mem_append.mp h with h | h
        · exact hstep q g2 h
        · simp at h; omega
    | group nm r1 =>
      simp only [mat, List.mem_map] at h
      obtain ⟨pg, hpg, hq⟩ := h
      have := ih r1 l p g hp pg.1 pg.2 hpg
      have : q = pg.1 := by
        have := congrArg Prod.fst hq
        simpa using this.symm
      omega
    | lookNeg r1 =>
      simp only [mat] at h
      split at h <;> simp at h
      omega

/-- Every group binding the engine reports is inherited or lies inside
the matched segment, with its start not after its end. -/
theorem mat_groups (n : Nat) : ∀ (r : Re) (l : List Char) (p : Nat) (g : Groups),
    p ≤ l.length → ∀ q g2, (q, g2) ∈ mat n r l p g →
    ∀ e ∈ g2, e ∈ g ∨ (p ≤ e.2.1 ∧ e.2.1 ≤ e.2.2 ∧ e.2.2 ≤ q) := by
  induction n with
  | zero => intro r l p g _ q g2 h; simp [mat] at h
  | succ n ih =>
    intro r l p g hp q g2 h e he
    cases r with
    | eps =>
      simp only [mat, List.mem_singleton] at h
      obtain ⟨rfl, rfl⟩ := Prod.mk.injEq .. ▸ h
      exact Or.inl he
    | bol =>
      simp only [mat] at h
      split at h <;> simp at h
      exact h.2 ▸ Or.inl he
    | cpred f =>
      simp only [mat] at h
      cases hc : l[p]? with
      | none => rw [hc] at h; simp at h
      | some c =>
        rw [hc] at h
        split at h <;> simp at h
        exact h.2.2 ▸ Or.inl he
    | seq a b =>
      simp only [mat, List.mem_flatMap] at h
      obtain ⟨pg, hpg, hb⟩ := h
      have hb1 := mat_bounds n a l p g hp pg.1 pg.2 hpg
      have hb2 := mat_bounds n b l pg.1 pg.2 hb1.2 q g2 hb
      rcases ih b l pg.1 pg.2 hb1.2 q g2 hb e he with h1 | h1
      · rcases ih a l p g hp pg.1 pg.2 hpg e h1 with h2 | h2
        · exact Or.inl h2
        · exact Or.inr ⟨h2.1, h2.2.1, le_trans h2.2.2 hb2.1⟩
      · exact Or.inr ⟨le_trans hb1.1 h1.1, h1.2.1, h1.2.2⟩
    | alt a b =>
      simp only [mat, List.mem_append] at h
      rcases h with h | h
      · exact ih a l p g hp q g2 h e he
      · exact ih b l p g hp q g2 h e he
    | star r1 lz =>
      simp only [mat] at h
      have hstep : (q, g2) ∈ (mat n r1 l p g).flatMap (fun pg =>
          if p < pg.1 ∧ pg.1 ≤ l.length then mat n (.star r1 lz) l pg.1 pg.2 else []) →
          e ∈ g ∨ (p ≤ e.2.1 ∧ e.2.1 ≤ e.2.2 ∧ e.2.2 ≤ q) := by
        intro hx
        simp only [List.mem_flatMap] at hx
        obtain ⟨pg, hpg, hx2⟩ := hx
        split at hx2
        · next hcond =>
          have hb1 := mat_bounds n r1 l p g hp pg.1 pg.2 hpg
          have hb2 := mat_bounds n (.star r1 lz) l pg.1 pg.2 hcond.2 q g2 hx2
          rcases ih (.star r1 lz) l pg.1 pg.2 hcond.2 q g2 hx2 e he with h1 | h1
          · rcases ih r1 l p g hp pg.1 pg.2 hpg e h1 with h2 | h2
            · exact Or.inl h2
            · exact Or.inr ⟨h2.1, h2.2.1, le_trans h2.2.2 hb2.1⟩
          · exact Or.inr ⟨le_trans hb1.1 h1.1, h1.2.1, h1.2.2⟩
        · simp at hx2
      split at h
      · rcases List.mem_cons.mp h with h | h
        · have : g2 = g := (Prod.mk.injEq .. ▸ h).2
          exact Or.inl (this ▸ he)
        · exact hstep h
      · rcases List.mem_append.mp h with h | h
        · exact hstep h
        · simp only [List.mem_singleton] at h
          have : g2 = g := (Prod.mk.injEq .. ▸ h).2
          exact Or.inl (this ▸ he)
    | group nm r1 =>
      simp only [mat, List.mem_map] at h
      obtain ⟨pg, hpg, hq⟩ := h
      have hb1 := mat_bounds n r1 l p g hp pg.1 pg.2 hpg
      have hq1 : q = pg.1 := by
        have := congrArg Prod.fst hq
        simpa using this.symm
      have hg2 : g2 = (nm, p, pg.1) :: pg.2 := by
        have := congrArg Prod.snd hq
        simpa using this.symm
      subst hq1
      rw [hg2] at he
      rcases List.mem_cons.mp he with h1 | h1
      · exact Or.inr (by rw [h1]; exact ⟨le_refl _, hb1.1, le_refl _⟩)
      · exact ih r1 l p g hp pg.1 pg.2 hpg e h1
    | lookNeg r1 =>
      simp only [mat] at h
      split at h <;> simp at h
      exact h.2 ▸ Or.inl he

/-- A matchable segment never runs backwards, and stays inside the line
when it starts inside it. -/
theorem sem_bounds : ∀ (r : Re) (l : List Char) (p q : Nat), Sem r l p q →
    p ≤ q ∧ (p ≤ l.length → q ≤ l.length) := by
  intro r
  induction r with
  | eps => intro l p q h; rw [Sem] at h; omega
  | bol => intro l p q h; rw [Sem] at h; omega
  | cpred f =>
    intro l p q h
    rw [Sem] at h
    obtain ⟨rfl, c, hc, _⟩ := h
    have := (List.getElem?_eq_some_iff.mp hc).1
    omega
  | seq a b iha ihb =>
    intro l p q h
    rw [Sem] at h
    obtain ⟨m, ha, hb⟩ := h
    have h1 := iha l p m ha
    have h2 := ihb l m q hb
    exact ⟨le_trans h1.1 h2.1, fun hp => h2.2 (h1.2 hp)⟩
  | alt a b iha ihb =>
    intro l p q h
    rw [Sem] at h
    rcases h with h | h
    · exact iha l p q h
    · exact ihb l p q h
  | star r1 lz ih =>
    intro l p q h
    rw [Sem] at h
    induction h with
    | refl => omega
    | tail _ hstep ihh => exact ⟨le_trans ihh.1 (le_of_lt hstep.1), fun _ => hstep.2.1⟩
  | group nm r1 ih => intro l p q h; rw [Sem] at h; exact ih l p q h
  | lookNeg r1 ih => intro l p q h; rw [Sem] at h; omega

/-- Fuel arithmetic: stepping to a structurally smaller pattern from a
position not before the current one preserves sufficiency. -/
theorem fuel_step {rem rem2 n s s2 : Nat} (hrem : 1 ≤ rem) (hr2 : rem2 ≤ rem)
    (hs : s2 < s) (h : rem * (s + 1) ≤ n + 1) : rem2 * (s2 + 1) ≤ n := by
  have h1 : rem2 * (s2 + 1) ≤ rem * s := Nat.mul_le_mul hr2 (by omega)
  have h2 : rem * (s + 1) = rem * s + rem := by ring
  omega

/-- Fuel arithmetic: iterating the same pattern from a strictly later
position preserves sufficiency. -/
theorem fuel_self {rem rem2 n s : Nat} (h2 : rem2 < rem)
    (h : rem * (s + 1) ≤ n + 1) : rem2 * (s + 1) ≤ n := by
  have h1 : rem2 * (s + 1) + (s + 1) ≤ rem * (s + 1) := by
    have h3 : (rem2 + 1) * (s + 1) ≤ rem * (s + 1) := Nat.mul_le_mul_right _ (by omega)
    calc rem2 * (s + 1) + (s + 1) = (rem2 + 1) * (s + 1) := by ring
      _ ≤ rem * (s + 1) := h3
  omega

/-- The engine agrees with the declarative semantics whenever the fuel is
at least (remaining length + 1) * (size + 1): some run of the engine ends
at q exactly when the pattern can match the segment ending at q. -/
theorem mat_iff_sem (n : Nat) : ∀ (r : Re) (l : List Char) (p : Nat) (g : Groups),
    p ≤ l.length → (l.length + 1 - p) * (r.size + 1) ≤ n →
    ∀ q, (∃ g2, (q, g2) ∈ mat n r l p g) ↔ Sem r l p q := by
  induction n with
  | zero =>
    intro r l p g hp hf q
    have h1 : 1 * 1 ≤ (l.length + 1 - p) * (r.size + 1) :=
      Nat.mul_le_mul (by omega) (by omega)
    omega
  | succ n ih =>
    intro r l p g hp hf q
    have hrem1 : 1 ≤ l.length + 1 - p := by omega
    cases r with
    | eps =>
      simp only [mat, Sem, List.mem_singleton, Prod.mk.injEq]
      constructor
      · rintro ⟨g2, rfl, rfl⟩; rfl
      · rintro rfl; exact ⟨g, rfl, rfl⟩
    | bol =>
      simp only [mat, Sem]
      split
      · next h0 =>
        simp only [List.mem_singleton, Prod.mk.injEq]
        constructor
        · rintro ⟨g2, rfl, rfl⟩; exact ⟨rfl, h0⟩
        · rintro ⟨rfl, _⟩; exact ⟨g, rfl, rfl⟩
      · next h0 =>
        simp only [List.not_mem_nil]
        constructor
        · rintro ⟨g2, h⟩; exact absurd h (by simp)
        · rintro ⟨_, h⟩; exact absurd h h0
    | cpred f =>
      constructor
      · rintro ⟨g2, h⟩
        simp only [mat] at h
        split at h
        · next c hc =>
          split at h
          · next hfc =>
            have h2 := List.mem_singleton.mp h
            rw [Sem]
            exact ⟨(Prod.mk.injEq .. ▸ h2).1, c, hc, hfc⟩
          · simp at h
        · simp at h
      · intro hs
        rw [Sem] at hs
        obtain ⟨hq, c, hc, hfc⟩ := hs
        refine ⟨g, ?_⟩
        simp only [mat, hc]
        rw [if_pos hfc, hq]
        exact List.mem_singleton.mpr rfl
    | seq a b =>
      simp only [mat, Sem, List.mem_flatMap]
      constructor
      · rintro ⟨g2, ⟨q1, g1⟩, hpg, hb⟩
        have hb1 := mat_bounds n a l p g hp q1 g1 hpg
        have hfa : (l.length + 1 - p) * (a.size + 1) ≤ n :=
          fuel_step hrem1 (le_refl _) (by simp [Re.size]; omega) hf
        have hfb : (l.length + 1 - q1) * (b.size + 1) ≤ n :=
          fuel_step hrem1 (by omega) (by simp [Re.size]; omega) hf
        refine ⟨q1, ?_, ?_⟩
        · exact (ih a l p g hp hfa q1).mp ⟨g1, hpg⟩
        · exact (ih b l q1 g1 hb1.2 hfb q).mp ⟨g2, hb⟩
      · rintro ⟨m, hsa, hsb⟩
        have hm := sem_bounds a l p m hsa
        have hfa : (l.length + 1 - p) * (a.size + 1) ≤ n :=
          fuel_step hrem1 (le_refl _) (by simp [Re.size]; omega) hf
        obtain ⟨g1, hg1⟩ := (ih a l p g hp hfa m).mpr hsa
        have hmL : m ≤ l.length := hm.2 hp
        have hfb : (l.length + 1 - m) * (b.size + 1) ≤ n :=
          fuel_step hrem1 (by omega) (by simp [Re.size]; omega) hf
        obtain ⟨g2, hg2⟩ := (ih b l m g1 hmL hfb q).mpr hsb
        exact ⟨g2, (m, g1), hg1, hg2⟩
    | alt a b =>
      simp only [mat, Sem, List.mem_append]
      have hfa : (l.length + 1 - p) * (a.size + 1) ≤ n :=
        fuel_step hrem1 (le_refl _) (by simp [Re.size]; omega) hf
      have hfb : (l.length + 1 - p) * (b.size + 1) ≤ n :=
        fuel_step hrem1 (le_refl _) (by simp [Re.size]; omega) hf
      constructor
      · rintro ⟨g2, h | h⟩
        · exact Or.inl ((ih a l p g hp hfa q).mp ⟨g2, h⟩)
        · exact Or.inr ((ih b l p g hp hfb q).mp ⟨g2, h⟩)
      · rintro (h | h)
        · obtain ⟨g2, hg2⟩ := (ih a l p g hp hfa q).mpr h
          exact ⟨g2, Or.inl hg2⟩
        · obtain ⟨g2, hg2⟩ := (ih b l p g hp hfb q).mpr h
          exact ⟨g2, Or.inr hg2⟩
    | star r1 lz =>
      have hfbody : (l.length + 1 - p) * (r1.size + 1) ≤ n :=
        fuel_step hrem1 (le_refl _) (by simp [Re.size]) hf
      have hbase : ∀ g2, ((q, g2) = (p, g) →
          Sem (.star r1 lz) l p q) := by
        rintro g2 h
        have : q = p := (Prod.mk.injEq .. ▸ h).1
        rw [Sem, this]
      have hstep : ∀ g2, (q, g2) ∈ (mat n r1 l p g).flatMap (fun pg =>
          if p < pg.1 ∧ pg.1 ≤ l.length then mat n (.star r1 lz) l pg.1 pg.2 else []) →
          Sem (.star r1 lz) l p q := by
        intro g2 hx
        simp only [List.mem_flatMap] at hx
        obtain ⟨⟨q1, g1⟩, hpg, hx2⟩ := hx
        split at hx2
        · next hcond =>
          have hsem1 : Sem r1 l p q1 :=
            (ih r1 l p g hp hfbody q1).mp ⟨g1, hpg⟩
          have hfstar : (l.length + 1 - q1) * (Re.size (.star r1 lz) + 1) ≤ n :=
            fuel_self (by omega) hf
          have hsem2 : Sem (.star r1 lz) l q1 q :=
            (ih (.star r1 lz) l q1 g1 hcond.2 hfstar q).mp ⟨g2, hx2⟩
          rw [Sem] at hsem2 ⊢
          exact Relation.ReflTransGen.head ⟨hcond.1, hcond.2, hsem1⟩ hsem2
        · simp at hx2
      constructor
      · rintro ⟨g2, h⟩
        simp only [mat] at h
        split at h
        · rcases List.mem_cons.mp h with h | h
          · exact hbase g2 h
          · exact hstep g2 h
        · rcases List.mem_append.mp h with h | h
          · exact hstep g2 h
          · exact hbase g2 (List.mem_singleton.mp h)
      · intro hsem
        rw [Sem] at hsem
        rcases (Relation.ReflTransGen.cases_head hsem) with rfl | ⟨b, hrel, htail⟩
        · refine ⟨g, ?_⟩
          simp only [mat]
          split
          · exact List.mem_cons_self _ _
          · exact List.mem_append.mpr (Or.inr (List.mem_singleton.mpr rfl))
        · obtain ⟨hlt, hbL, hsem1⟩ := hrel
          obtain ⟨g1, hg1⟩ := (ih r1 l p g hp hfbody b).mpr hsem1
          have hfstar : (l.length + 1 - b) * (Re.size (.star r1 lz) + 1) ≤ n :=
            fuel_self (by omega) hf
          obtain ⟨g2, hg2⟩ := (ih (.star r1 lz) l b g1 hbL hfstar q).mpr (by rw [Sem]; exact htail)
          refine ⟨g2, ?_⟩
          simp only [mat]
          have hmem : (q, g2) ∈ (mat n r1 l p g).flatMap (fun pg =>
              if p < pg.1 ∧ pg.1 ≤ l.length then mat n (.star r1 lz) l pg.1 pg.2 else []) := by
            simp only [List.mem_flatMap]
            exact ⟨(b, g1), hg1, by rw [if_pos ⟨hlt, hbL⟩]; exact hg2⟩
          split
          · exact List.mem_cons_of_mem _ hmem
          · exact List.mem_append.mpr (Or.inl hmem)
    | group nm r1 =>
      simp only [mat, Sem, List.mem_map]
      have hf1 : (l.length + 1 - p) * (r1.size + 1) ≤ n :=
        fuel_step hrem1 (le_refl _) (by simp [Re.size]) hf
      constructor
      · rintro ⟨g2, ⟨q1, g1⟩, hpg, hq⟩
        have hq1 : q = q1 := by
          have := congrArg Prod.fst hq
          simpa using this.symm
        rw [hq1]
        exact (ih r1 l p g hp hf1 q1).mp ⟨g1, hpg⟩
      · intro hsem
        obtain ⟨g1, hg1⟩ := (ih r1 l p g hp hf1 q).mpr hsem
        exact ⟨(nm, p, q) :: g1, (q, g1), hg1, rfl⟩
    | lookNeg r1 =>
      simp only [mat, Sem]
      have hf1 : (l.length + 1 - p) * (r1.size + 1) ≤ n :=
        fuel_step hrem1 (le_refl _) (by simp [Re.size]) hf
      constructor
      · rintro ⟨g2, h⟩
        split at h
        · next hemp =>
          have hqp : q = p ∧ g2 = g := by
            have := List.mem_singleton.mp h
            exact ⟨(Prod.mk.injEq .. ▸ this).1, (Prod.mk.injEq .. ▸ this).2⟩
          refine ⟨hqp.1, fun m hm => ?_⟩
          obtain ⟨g3, hg3⟩ := (ih r1 l p g hp hf1 m).mpr hm
          rw [List.isEmpty_iff] at hemp
          rw [hemp] at hg3
          exact absurd hg3 (List.not_mem_nil _)
        · exact absurd h (List.not_mem_nil _)
      · rintro ⟨hqp, hno⟩
        have hemp : mat n r1 l p g = [] := by
          by_contra hne
          obtain ⟨⟨m1, g3⟩, he⟩ := List.exists_mem_of_ne_nil _ hne
          exact hno m1 ((ih r1 l p g hp hf1 m1).mp ⟨g3, he⟩)
        refine ⟨g, ?_⟩
        rw [if_pos (by rw [hemp]; rfl)]
        exact List.mem_singleton.mpr (by rw [hqp])

/-- The head of a list is a member. -/
theorem head?_mem {α : Type} {l : List α} {a : α} (h : l.head? = some a) : a ∈ l := by
  obtain ⟨ys, rfl⟩ := List.head?_eq_some_iff.mp h
  exact List.mem_cons_self a ys

/-- The canonical fuel is sufficient at every in-line position. -/
theorem fuelFor_ok (r : Re) (l : List Char) (p : Nat) (hp : p ≤ l.length) :
    (l.length + 1 - p) * (r.size + 1) ≤ fuelFor r l :=
  Nat.mul_le_mul_right (r.size + 1) (by omega)

/-- Everything searchFromPos reports is a true match: it starts no earlier
than the requested position, lies within the line, satisfies the
declarative semantics, carries the pattern's group names, and all its
group bindings lie inside the matched span. -/
theorem searchFromPos_some {r : Re} {l : List Char} {pos : Nat} {m : RMatch}
    (h : searchFromPos r l pos = some m) :
    pos ≤ m.start ∧ m.start ≤ l.length ∧ m.start ≤ m.stop ∧ m.stop ≤ l.length ∧
    Sem r l m.start m.stop ∧ m.names = r.groupNames ∧
    (∀ e ∈ m.groups, m.start ≤ e.2.1 ∧ e.2.1 ≤ e.2.2 ∧ e.2.2 ≤ m.stop) := by
  obtain ⟨p, hpr, hf⟩ := List.exists_of_findSome?_eq_some h
  have hpL : p ≤ l.length := by
    have := List.mem_range.mp hpr
    omega
  split at hf
  · exact absurd hf (by simp)
  · next hnot =>
    rw [Option.map_eq_some'] at hf
    obtain ⟨⟨q1, g1⟩, hhead, hm⟩ := hf
    have hmem : (q1, g1) ∈ matRoot r l p := head?_mem hhead
    have hb := mat_bounds (fuelFor r l) r l p [] hpL q1 g1 hmem
    have hsem : Sem r l p q1 :=
      (mat_iff_sem (fuelFor r l) r l p [] hpL (fuelFor_ok r l p hpL) q1).mp ⟨g1, hmem⟩
    have hg := mat_groups (fuelFor r l) r l p [] hpL q1 g1 hmem
    subst hm
    refine ⟨show pos ≤ p by omega, hpL, hb.1, hb.2, hsem, rfl, ?_⟩
    intro e he
    rcases hg e he with h1 | h1
    · exact absurd h1 (List.not_mem_nil _)
    · exact h1

/-- When searchFromPos reports nothing, no in-line position at or after
the requested one begins a match. -/
theorem searchFromPos_none {r : Re} {l : List Char} {pos : Nat}
    (h : searchFromPos r l pos = none) (p q : Nat) (hpos : pos ≤ p)
    (hp : p ≤ l.length) : ¬ Sem r l p q := by
  intro hsem
  have h2 := List.findSome?_eq_none_iff.mp h p (List.mem_range.mpr (by omega))
  rw [if_neg (by omega)] at h2
  rw [Option.map_eq_none'] at h2
  rw [List.head?_eq_none_iff] at h2
  obtain ⟨g2, hg2⟩ :=
    (mat_iff_sem (fuelFor r l) r l p [] hp (fuelFor_ok r l p hp) q).mpr hsem
  rw [show mat (fuelFor r l) r l p [] = matRoot r l p from rfl, h2] at hg2
  exact absurd hg2 (List.not_mem_nil _)

/-- re.search finds a match exactly when some in-line position begins
one. -/
theorem searchHit_iff {r : Re} {l : List Char} :
    searchHit r l = true ↔ ∃ p q, p ≤ l.length ∧ Sem r l p q := by
  constructor
  · intro h
    rw [searchHit, reSearch] at h
    obtain ⟨m, hm⟩ := Option.isSome_iff_exists.mp h
    have := searchFromPos_some hm
    exact ⟨m.start, m.stop, this.2.1, this.2.2.2.2.1⟩
  · rintro ⟨p, q, hp, hsem⟩
    rw [searchHit, reSearch]
    cases hh : searchFromPos r l 0 with
    | none => exact absurd hsem (searchFromPos_none hh p q (Nat.zero_le p) hp)
    | some m => rfl

/-- Matching a pattern whose first factor is the line-start anchor pins
the start to position zero. -/
theorem sem_seq_bol {x : Re} {l : List Char} {p q : Nat} :
    Sem (.seq .bol x) l p q ↔ p = 0 ∧ Sem x l 0 q := by
  rw [Sem]
  constructor
  · rintro ⟨m, hb, hx⟩
    rw [Sem] at hb
    obtain ⟨rfl, rfl⟩ := hb
    exact ⟨rfl, hx⟩
  · rintro ⟨rfl, hx⟩
    exact ⟨0, by rw [Sem]; exact ⟨rfl, rfl⟩, hx⟩

/-- For an anchored pattern, search succeeds exactly when the pattern
matches some segment starting at position zero. -/
theorem searchHit_anchored_iff {x : Re} {l : List Char} :
    searchHit (.seq .bol x) l = true ↔ ∃ q, Sem x l 0 q := by
  rw [searchHit_iff]
  constructor
  · rintro ⟨p, q, _, hsem⟩
    exact ⟨q, (sem_seq_bol.mp hsem).2⟩
  · rintro ⟨q, hsem⟩
    exact ⟨0, q, Nat.zero_le _, sem_seq_bol.mpr ⟨rfl, hsem⟩⟩

/-- Every match the finditer loop yields, from any fuel and start
position, is in-line, forward, carries the pattern's group names, and
binds groups inside its own span. -/
theorem finditerAux_mem {r : Re} {l : List Char} :
    ∀ (n pos : Nat) (m : RMatch), m ∈ finditerAux n r l pos →
    m.start ≤ m.stop ∧ m.stop ≤ l.length ∧ m.names = r.groupNames ∧
    (∀ e ∈ m.groups, m.start ≤ e.2.1 ∧ e.2.1 ≤ e.2.2 ∧ e.2.2 ≤ m.stop) := by
  intro n
  induction n with
  | zero => intro pos m h; simp [finditerAux] at h
  | succ n ihn =>
    intro pos m h
    rw [finditerAux] at h
    cases hs : searchFromPos r l pos with
    | none => rw [hs] at h; exact absurd h (List.not_mem_nil _)
    | some m1 =>
      rw [hs] at h
      rcases List.mem_cons.mp h with rfl | h2
      · have hm := searchFromPos_some hs
        exact ⟨hm.2.2.1, hm.2.2.2.1, hm.2.2.2.2.2.1, hm.2.2.2.2.2.2⟩
      · exact ihn _ m h2

/-- Every match finditer yields is in-line, forward, carries the
pattern's group names, and binds groups inside its own span. -/
theorem finditer_mem {r : Re} {l : List Char} {m : RMatch} (h : m ∈ finditer r l) :
    m.start ≤ m.stop ∧ m.stop ≤ l.length ∧ m.names = r.groupNames ∧
    (∀ e ∈ m.groups, m.start ≤ e.2.1 ∧ e.2.1 ≤ e.2.2 ∧ e.2.2 ≤ m.stop) :=
  finditerAux_mem (l.length + 2) 0 m h

/-- The segment of a line between two positions. -/
def seg (l : List Char) (a b : Nat) : List Char := (l.drop a).take (b - a)

/-- Whether a pattern avoids the contextual constructs (lookahead and the
anchor), so that its matches are determined by the matched text alone. -/
def Re.laFree : Re → Bool
  | .eps => true
  | .cpred _ => true
  | .seq a b => a.laFree && b.laFree
  | .alt a b => a.laFree && b.laFree
  | .star r _ => r.laFree
  | .group _ r => r.laFree
  | .lookNeg _ => false
  | .bol => false

/-- Word-level language of a context-free (laFree) pattern: which
character lists the pattern matches in full. Repetition concatenates
non-empty units, matching the engine's progress guard. -/
def Lang : Re → List Char → Prop
  | .eps, w => w = []
  | .cpred f, w => ∃ c, w = [c] ∧ f c = true
  | .seq a b, w => ∃ u v, w = u ++ v ∧ Lang a u ∧ Lang b v
  | .alt a b, w => Lang a w ∨ Lang b w
  | .star r _, w => ∃ ws : List (List Char), (∀ u ∈ ws, u ≠ [] ∧ Lang r u) ∧ w = ws.flatten
  | .group _ r, w => Lang r w
  | .lookNeg _, _ => False
  | .bol, _ => False

/-- An empty segment. -/
theorem seg_same (l : List Char) (a : Nat) : seg l a a = [] := by
  simp [seg]

/-- In-line segments have the expected length. -/
theorem seg_len {l : List Char} {a b : Nat} (hab : a ≤ b) (hb : b ≤ l.length) :
    (seg l a b).length = b - a := by
  simp only [seg, List.length_take, List.length_drop]
  omega

/-- Segments concatenate at any midpoint. -/
theorem seg_append {l : List Char} {a m b : Nat} (h1 : a ≤ m) (h2 : m ≤ b) :
    seg l a b = seg l a m ++ seg l m b := by
  have hsum : b - a = (m - a) + (b - m) := by omega
  rw [seg, hsum, List.take_add, List.drop_drop]
  have : a + (m - a) = m := by omega
  rw [this]
  rfl

/-- A one-character segment at a valid index. -/
theorem seg_single {l : List Char} {i : Nat} {c : Char} (h : l[i]? = some c) :
    seg l i (i + 1) = [c] := by
  have hh : (l.drop i).head? = some c := by rw [List.head?_drop]; exact h
  obtain ⟨ys, hys⟩ := List.head?_eq_some_iff.mp hh
  simp [seg, hys]

/-- Build a repetition chain from a word-level decomposition into
non-empty units, given a builder for one unit. -/
theorem lang_star_build (r1 : Re) (l : List Char)
    (build : ∀ a b, a ≤ l.length → a ≤ b → b ≤ l.length → Lang r1 (seg l a b) →
      Sem r1 l a b) :
    ∀ (ws : List (List Char)) (a b : Nat), a ≤ l.length → a ≤ b → b ≤ l.length →
    (∀ u ∈ ws, u ≠ [] ∧ Lang r1 u) → seg l a b = ws.flatten →
    Relation.ReflTransGen (fun x y => x < y ∧ y ≤ l.length ∧ Sem r1 l x y) a b := by
  intro ws
  induction ws with
  | nil =>
    intro a b hp hab hbL _ hflat
    simp only [List.flatten_nil] at hflat
    have hlen := seg_len hab hbL
    rw [hflat] at hlen
    simp at hlen
    have : b = a := by omega
    rw [this]
  | cons u ws2 ihws =>
    intro a b hp hab hbL hws hflat
    have hu := hws u (List.mem_cons_self _ _)
    have hlen := seg_len hab hbL
    rw [hflat] at hlen
    simp only [List.flatten_cons, List.length_append] at hlen
    set y := a + u.length with hy
    have hyb : y ≤ b := by omega
    have hyL : y ≤ l.length := by omega
    have hsu : seg l a y = u := by
      have h3 : seg l a y = (seg l a b).take u.length := by
        rw [seg, seg, List.take_take]
        congr 1
        omega
      rw [h3, hflat, List.flatten_cons, List.take_left]
    have hsv : seg l y b = ws2.flatten := by
      have h4 : seg l a b = seg l a y ++ seg l y b := seg_append (by omega) hyb
      rw [hflat, List.flatten_cons, hsu] at h4
      exact (List.append_cancel_left h4).symm
    have hune : 0 < u.length := List.length_pos.mpr hu.1
    have hsem1 : Sem r1 l a y := build a y hp (by omega) hyL (hsu ▸ hu.2)
    have htail := ihws y b hyL hyb hbL
      (fun v hv => hws v (List.mem_cons_of_mem _ hv)) hsv
    exact Relation.ReflTransGen.head ⟨by omega, hyL, hsem1⟩ htail

/-- Decompose a repetition chain into a word-level list of non-empty
units, given an extractor for one unit. -/
theorem star_sem_decomp (r1 : Re) (l : List Char) (b : Nat)
    (extract : ∀ x y, x ≤ l.length → Sem r1 l x y → Lang r1 (seg l x y)) :
    ∀ a, Relation.ReflTransGen (fun x y => x < y ∧ y ≤ l.length ∧ Sem r1 l x y) a b →
    a ≤ l.length →
    a ≤ b ∧ b ≤ l.length ∧
      ∃ ws : List (List Char), (∀ u ∈ ws, u ≠ [] ∧ Lang r1 u) ∧ seg l a b = ws.flatten := by
  intro a h hxL0
  refine (@Relation.ReflTransGen.head_induction_on Nat
    (fun x y => x < y ∧ y ≤ l.length ∧ Sem r1 l x y) b
    (fun x _ => x ≤ l.length → x ≤ b ∧ b ≤ l.length ∧
      ∃ ws : List (List Char), (∀ u ∈ ws, u ≠ [] ∧ Lang r1 u) ∧ seg l x b = ws.flatten)
    a h ?_ ?_) hxL0
  · intro hbL
    exact ⟨le_refl _, hbL, ⟨[], by simp, by rw [seg_same]; simp⟩⟩
  · intro x y step tail ihh hxL
    obtain ⟨hxy, hyL, hsem⟩ := step
    obtain ⟨hyb, hbL, ws, hws, hflat⟩ := ihh hyL
    refine ⟨by omega, hbL, seg l x y :: ws, ?_, ?_⟩
    · intro u hu2
      rcases List.mem_cons.mp hu2 with rfl | hu3
      · constructor
        · have := seg_len (by omega : x ≤ y) hyL
          intro hnil
          rw [hnil] at this
          simp at this
          omega
        · exact extract x y hxL hsem
      · exact hws u hu3
    · rw [seg_append (by omega : x ≤ y) hyb, hflat]
      rfl

/-- Positional matching of a context-free pattern is matching its segment
as a word, for in-line positions. -/
theorem sem_iff_lang : ∀ (r : Re), r.laFree = true → ∀ (l : List Char) (a b : Nat),
    a ≤ l.length → (Sem r l a b ↔ (a ≤ b ∧ b ≤ l.length ∧ Lang r (seg l a b))) := by
  intro r
  induction r with
  | eps =>
    intro _ l a b hp
    rw [Sem, Lang]
    constructor
    · intro h; rw [h]; exact ⟨le_refl _, hp, seg_same l a⟩
    · rintro ⟨hab, hbL, hlang⟩
      have := seg_len hab hbL
      rw [hlang] at this
      simp at this
      omega
  | cpred f =>
    intro _ l a b hp
    rw [Sem, Lang]
    constructor
    · rintro ⟨rfl, c, hc, hfc⟩
      have haL := (List.getElem?_eq_some_iff.mp hc).1
      exact ⟨by omega, by omega, c, seg_single hc, hfc⟩
    · rintro ⟨hab, hbL, c, hseg, hfc⟩
      have hlen := seg_len hab hbL
      rw [hseg] at hlen
      simp at hlen
      cases hd : l.drop a with
      | nil => rw [seg, hd] at hseg; simp at hseg
      | cons d tl =>
        have hda : l[a]? = some d := by rw [← List.head?_drop, hd]; rfl
        have hbd : b - a = 1 := hlen.symm
        have : seg l a b = [d] := by
          rw [seg, hd, hbd]
          rfl
        rw [this] at hseg
        have hdc : d = c := by injection hseg
        exact ⟨by omega, c, hdc ▸ hda, hfc⟩
  | seq x y ihx ihy =>
    intro hfree l a b hp
    rw [Re.laFree, Bool.and_eq_true] at hfree
    rw [Sem, Lang]
    constructor
    · rintro ⟨m, hx, hy⟩
      have hmb := sem_bounds x l a m hx
      have hmL : m ≤ l.length := hmb.2 hp
      have h1 := (ihx hfree.1 l a m hp).mp hx
      have h2 := (ihy hfree.2 l m b hmL).mp hy
      exact ⟨le_trans h1.1 h2.1, h2.2.1,
        seg l a m, seg l m b, seg_append h1.1 h2.1, h1.2.2, h2.2.2⟩
    · rintro ⟨hab, hbL, u, v, hw, hu, hv⟩
      have hlen := seg_len hab hbL
      rw [hw] at hlen
      simp only [List.length_append] at hlen
      set m := a + u.length with hm
      have hmb : m ≤ b := by omega
      have hmL : m ≤ l.length := by omega
      have hsu : seg l a m = u := by
        have h3 : seg l a m = (seg l a b).take u.length := by
          rw [seg, seg, List.take_take]
          congr 1
          omega
        rw [h3, hw, List.take_left]
      have hsv : seg l m b = v := by
        have h4 : seg l a b = seg l a m ++ seg l m b := seg_append (by omega) hmb
        rw [hw, hsu] at h4
        exact (List.append_cancel_left h4).symm
      refine ⟨m, (ihx hfree.1 l a m hp).mpr ⟨by omega, hmL, hsu ▸ hu⟩,
        (ihy hfree.2 l m b hmL).mpr ⟨hmb, hbL, hsv ▸ hv⟩⟩
  | alt x y ihx ihy =>
    intro hfree l a b hp
    rw [Re.laFree, Bool.and_eq_true] at hfree
    rw [Sem, Lang]
    constructor
    · rintro (h | h)
      · have := (ihx hfree.1 l a b hp).mp h
        exact ⟨this.1, this.2.1, Or.inl this.2.2⟩
      · have := (ihy hfree.2 l a b hp).mp h
        exact ⟨this.1, this.2.1, Or.inr this.2.2⟩
    · rintro ⟨hab, hbL, h | h⟩
      · exact Or.inl ((ihx hfree.1 l a b hp).mpr ⟨hab, hbL, h⟩)
      · exact Or.inr ((ihy hfree.2 l a b hp).mpr ⟨hab, hbL, h⟩)
  | star r1 lz ihr =>
    intro hfree l a b hp
    rw [Re.laFree] at hfree
    constructor
    · intro h
      rw [Sem] at h
      have hd := star_sem_decomp r1 l b
        (fun x y hx hs => ((ihr hfree l x y hx).mp hs).2.2) a h hp
      exact ⟨hd.1, hd.2.1, hd.2.2⟩
    · rintro ⟨hab, hbL, ws, hws, hflat⟩
      rw [Sem]
      exact lang_star_build r1 l
        (fun x y hx hxy hyL hlang => (ihr hfree l x y hx).mpr ⟨hxy, hyL, hlang⟩)
        ws a b hp hab hbL hws hflat
  | group nm r1 ihr =>
    intro hfree l a b hp
    rw [Re.laFree] at hfree
    rw [Sem, Lang]
    exact ihr hfree l a b hp
  | lookNeg r1 _ => intro hfree; rw [Re.laFree] at hfree; cases hfree
  | bol => intro hfree; rw [Re.laFree] at hfree; cases hfree

/-- States of the single-quote scanner: outside any string, inside a
string, inside a string right after a backslash, or stuck after an
escape that the string model does not allow. -/
inductive SState : Type
  | out : SState
  | ins : SState
  | esc : SState
  | dead : SState
  deriving DecidableEq

/-- One step of the single-quote scanner. -/
def sstep : SState → Char → SState
  | .out, c => if c = qc then .ins else .out
  | .ins, c => if c = qc then .out else if c = bsl then .esc else .ins
  | .esc, c => if c = bsl ∨ c = qc then .ins else .dead
  | .dead, _ => .dead

/-- Run the single-quote scanner over a word. -/
def scanFrom (st : SState) (u : List Char) : SState := u.foldl sstep st

/-- The scanner splits over concatenation. -/
theorem scan_append (st : SState) (u v : List Char) :
    scanFrom st (u ++ v) = scanFrom (scanFrom st u) v :=
  List.foldl_append ..

/-- The dead state absorbs. -/
theorem scan_dead : ∀ (u : List Char), scanFrom .dead u = .dead := by
  intro u
  induction u with
  | nil => rfl
  | cons c u ih => simpa [scanFrom, sstep] using ih

/-- Quote-free text keeps the scanner outside. -/
theorem scan_out_qfree : ∀ (u : List Char), (∀ c ∈ u, ¬ c = qc) →
    scanFrom .out u = .out := by
  intro u
  induction u with
  | nil => intro _; rfl
  | cons c u ih =>
    intro h
    have hc := h c (List.mem_cons_self _ _)
    have : sstep .out c = .out := by simp [sstep, hc]
    simpa [scanFrom, List.foldl_cons, this] using ih (fun d hd => h d (List.mem_cons_of_mem _ hd))

/-- A single literal character as a word. -/
theorem lang_ch_iff {c : Char} {w : List Char} : Lang (Re.ch c) w ↔ w = [c] := by
  rw [Re.ch, Lang]
  constructor
  · rintro ⟨d, rfl, hd⟩
    simp at hd
    rw [hd]
  · rintro rfl
    exact ⟨c, rfl, by simp⟩

/-- A literal string as a word. -/
theorem lang_strLit_iff : ∀ (t w : List Char), Lang (Re.strLit t) w ↔ w = t := by
  intro t
  induction t with
  | nil => intro w; rw [Re.strLit, List.foldr_nil, Lang]
  | cons c t ih =>
    intro w
    rw [Re.strLit, List.foldr_cons, Lang]
    constructor
    · rintro ⟨u, v, rfl, hu, hv⟩
      rw [lang_ch_iff.mp hu, (ih v).mp hv]
      rfl
    · rintro rfl
      exact ⟨[c], t, rfl, lang_ch_iff.mpr rfl, (ih t).mpr rfl⟩

/-- Repetition of a one-character predicate is a word of satisfying
characters. -/
theorem lang_star_pred_iff {f : Char → Bool} {lz : Bool} {w : List Char} :
    Lang (.star (.cpred f) lz) w ↔ ∀ c ∈ w, f c = true := by
  rw [Lang]
  constructor
  · rintro ⟨ws, hws, rfl⟩
    intro c hc
    obtain ⟨u, hu, hcu⟩ := List.mem_flatten.mp hc
    obtain ⟨d, rfl, hd⟩ := (hws u hu).2
    rw [List.mem_singleton.mp hcu]
    exact hd
  · intro h
    refine ⟨w.map (fun c => [c]), ?_, ?_⟩
    · intro u hu
      obtain ⟨c, hc, rfl⟩ := List.mem_map.mp hu
      exact ⟨by simp, c, rfl, h c hc⟩
    · induction w with
      | nil => rfl
      | cons c w ih =>
        simp only [List.map_cons, List.flatten_cons]
        rw [← ih (fun d hd => h d (List.mem_cons_of_mem _ hd))]
        rfl

/-- The empty word is in every repetition. -/
theorem lang_star_nil {r : Re} {lz : Bool} : Lang (.star r lz) [] := by
  rw [Lang]
  exact ⟨[], by simp, rfl⟩

/-- Prepending one non-empty unit to a repetition. -/
theorem lang_star_cons {r : Re} {lz : Bool} {u v : List Char}
    (hne : u ≠ []) (hu : Lang r u) (hv : Lang (.star r lz) v) :
    Lang (.star r lz) (u ++ v) := by
  rw [Lang] at hv ⊢
  obtain ⟨ws, hws, rfl⟩ := hv
  refine ⟨u :: ws, ?_, rfl⟩
  intro x hx
  rcases List.mem_cons.mp hx with rfl | hx2
  · exact ⟨hne, hu⟩
  · exact hws x hx2

/-- Assemble one complete quoted string from its parts. -/
theorem lang_qString_build {f body : List Char} (hf : ∀ c ∈ f, ¬ c = qc)
    (hbody : Lang (.star strBodyC false) body) :
    Lang qString (f ++ qc :: (body ++ [qc])) := by
  rw [qString, Lang]
  refine ⟨f, qc :: (body ++ [qc]), rfl, ?_, ?_⟩
  · exact lang_star_pred_iff.mpr (fun c hc => by simpa using hf c hc)
  · rw [Lang]
    refine ⟨[qc], body ++ [qc], rfl, lang_ch_iff.mpr rfl, ?_⟩
    rw [Lang]
    exact ⟨body, [qc], rfl, hbody, lang_ch_iff.mpr rfl⟩

/-- One string-body unit keeps the scanner inside the string. -/
theorem scan_ins_bodyunit {w : List Char} (h : Lang strBodyC w) :
    scanFrom .ins w = .ins := by
  rw [strBodyC, Lang] at h
  rcases h with ⟨u, v, rfl, hu, hv⟩ | ⟨u, v, rfl, hu, hv⟩ | ⟨c, rfl, hc⟩
  · rw [lang_ch_iff.mp hu, lang_ch_iff.mp hv]
    decide
  · rw [lang_ch_iff.mp hu, lang_ch_iff.mp hv]
    decide
  · simp only [decide_eq_true_eq] at hc
    simp [scanFrom, sstep, hc.1, hc.2]

/-- A whole string body keeps the scanner inside the string. -/
theorem scan_ins_bodystar {w : List Char} (h : Lang (.star strBodyC false) w) :
    scanFrom .ins w = .ins := by
  rw [Lang] at h
  obtain ⟨ws, hws, rfl⟩ := h
  induction ws with
  | nil => rfl
  | cons u ws ih =>
    rw [List.flatten_cons, scan_append, scan_ins_bodyunit (hws u (List.mem_cons_self _ _)).2]
    exact ih (fun x hx => hws x (List.mem_cons_of_mem _ hx))

/-- One complete quoted string returns the scanner to the outside. -/
theorem scan_out_qstring {w : List Char} (h : Lang qString w) :
    scanFrom .out w = .out := by
  rw [qString, Lang] at h
  obtain ⟨f, v, rfl, hf, hv⟩ := h
  rw [Lang] at hv
  obtain ⟨q1, v2, rfl, hq1, hv2⟩ := hv
  rw [Lang] at hv2
  obtain ⟨body, q2, rfl, hbody, hq2⟩ := hv2
  rw [lang_ch_iff.mp hq1, lang_ch_iff.mp hq2]
  rw [scan_append, scan_out_qfree f (fun c hc => by
    have := lang_star_pred_iff.mp hf c hc
    simpa using this)]
  rw [scan_append, scan_append]
  have h1 : scanFrom SState.out [qc] = .ins := by simp [scanFrom, sstep]
  rw [h1, scan_ins_bodystar hbody]
  simp [scanFrom, sstep]

/-- A run of complete quoted strings returns the scanner to the outside. -/
theorem scan_out_qrunstar {w : List Char} (h : Lang (.star qString false) w) :
    scanFrom .out w = .out := by
  rw [Lang] at h
  obtain ⟨ws, hws, rfl⟩ := h
  induction ws with
  | nil => rfl
  | cons u ws ih =>
    rw [List.flatten_cons, scan_append, scan_out_qstring (hws u (List.mem_cons_self _ _)).2]
    exact ih (fun x hx => hws x (List.mem_cons_of_mem _ hx))

/-- A quote-free character extends a complete quoted string on the left. -/
theorem qstring_cons {c : Char} {w : List Char} (hc : ¬ c = qc)
    (h : Lang qString w) : Lang qString (c :: w) := by
  rw [qString, Lang] at h ⊢
  obtain ⟨f, v, rfl, hf, hv⟩ := h
  refine ⟨c :: f, v, rfl, ?_, hv⟩
  rw [notQuoteC] at hf ⊢
  rw [lang_star_pred_iff] at hf ⊢
  intro d hd
  rcases List.mem_cons.mp hd with rfl | hd2
  · simpa using hc
  · exact hf d hd2

/-- A scan that starts inside a string and ends outside must cross a
closing quote: the word splits into a valid string body followed by the
closing quote and a remainder that scans from outside to outside. -/
theorem ins_decomp : ∀ (n : Nat) (u : List Char), u.length ≤ n →
    scanFrom .ins u = .out →
    ∃ body rest, u = body ++ qc :: rest ∧ Lang (.star strBodyC false) body ∧
      scanFrom .out rest = .out := by
  intro n
  induction n with
  | zero =>
    intro u hlen h
    have : u = [] := List.length_eq_zero.mp (by omega)
    rw [this] at h
    exact absurd h (by decide)
  | succ n ih =>
    intro u hlen h
    cases u with
    | nil => exact absurd h (by decide)
    | cons c u2 =>
      by_cases hc : c = qc
      · subst hc
        refine ⟨[], u2, rfl, lang_star_nil, ?_⟩
        rw [scanFrom, List.foldl_cons, show sstep .ins qc = .out by decide] at h
        exact h
      · by_cases hb : c = bsl
        · subst hb
          cases u2 with
          | nil => exact absurd h (by decide)
          | cons d u3 =>
            by_cases hd : d = bsl ∨ d = qc
            · have hstep : scanFrom .ins (bsl :: d :: u3) = scanFrom .ins u3 := by
                rw [scanFrom, List.foldl_cons, List.foldl_cons,
                  show sstep .ins bsl = .esc by decide,
                  show sstep .esc d = .ins by simp [sstep, hd]]
                rfl
              rw [hstep] at h
              obtain ⟨body, rest, hbr, hbody, hrest⟩ :=
                ih u3 (by simp at hlen ⊢; omega) h
              refine ⟨bsl :: d :: body, rest, by rw [hbr]; rfl, ?_, hrest⟩
              refine lang_star_cons (u := [bsl, d]) (by simp) ?_ hbody
              rw [strBodyC, Lang]
              rcases hd with rfl | rfl
              · exact Or.inl ⟨[bsl], [bsl], rfl, lang_ch_iff.mpr rfl, lang_ch_iff.mpr rfl⟩
              · exact Or.inr (Or.inl ⟨[bsl], [qc], rfl, lang_ch_iff.mpr rfl,
                  lang_ch_iff.mpr rfl⟩)
            · have hstep : scanFrom .ins (bsl :: d :: u3) = scanFrom .dead u3 := by
                rw [scanFrom, List.foldl_cons, List.foldl_cons,
                  show sstep .ins bsl = .esc by decide,
                  show sstep .esc d = .dead by simp [sstep, hd]]
                rfl
              rw [hstep, scan_dead] at h
              exact absurd h (by decide)
        · have hstep : scanFrom .ins (c :: u2) = scanFrom .ins u2 := by
            rw [scanFrom, List.foldl_cons, show sstep .ins c = .ins by simp [sstep, hc, hb]]
            rfl
          rw [hstep] at h
          obtain ⟨body, rest, hbr, hbody, hrest⟩ := ih u2 (by simp at hlen ⊢; omega) h
          refine ⟨c :: body, rest, by rw [hbr]; rfl, ?_, hrest⟩
          refine lang_star_cons (u := [c]) (by simp) ?_ hbody
          rw [strBodyC, Lang]
          exact Or.inr (Or.inr ⟨c, rfl, by simp [hc, hb]⟩)

/-- A scan from outside to outside splits the word into a run of complete
quoted strings followed by a quote-free remainder. -/
theorem scan_out_decomp : ∀ (n : Nat) (u : List Char), u.length ≤ n →
    scanFrom .out u = .out →
    ∃ u1 u2, u = u1 ++ u2 ∧ Lang (.star qString false) u1 ∧ (∀ c ∈ u2, ¬ c = qc) := by
  intro n
  induction n with
  | zero =>
    intro u hlen _
    have : u = [] := List.length_eq_zero.mp (by omega)
    exact ⟨[], [], by rw [this]; rfl, lang_star_nil, by simp⟩
  | succ n ih =>
    intro u hlen h
    cases u with
    | nil => exact ⟨[], [], rfl, lang_star_nil, by simp⟩
    | cons c u2 =>
      by_cases hc : c = qc
      · subst hc
        rw [scanFrom, List.foldl_cons, show sstep .out qc = .ins by decide] at h
        obtain ⟨body, rest, hbr, hbody, hrest⟩ :=
          ins_decomp u2.length u2 (le_refl _) h
        have hrestlen : rest.length ≤ n := by
          have := congrArg List.length hbr
          simp at this hlen
          omega
        obtain ⟨r1, r2, hr12, hr1, hr2⟩ := ih rest hrestlen hrest
        refine ⟨(qc :: (body ++ [qc])) ++ r1, r2, ?_, ?_, hr2⟩
        · rw [hbr, hr12]
          simp
        · refine lang_star_cons (by simp) ?_ hr1
          have := lang_qString_build (f := []) (by simp) hbody
          simpa using this
      · rw [scanFrom, List.foldl_cons, show sstep .out c = .out by simp [sstep, hc]] at h
        obtain ⟨u1, u2b, hu12, hu1, hu2⟩ := ih u2 (by simp at hlen ⊢; omega) h
        rw [Lang] at hu1
        obtain ⟨ws, hws, hflat⟩ := hu1
        cases ws with
        | nil =>
          simp only [List.flatten_nil] at hflat
          refine ⟨[], c :: u2, rfl, lang_star_nil, ?_⟩
          intro d hd
          rcases List.mem_cons.mp hd with rfl | hd2
          · exact hc
          · rw [hu12, hflat] at hd2
            exact hu2 d (by simpa using hd2)
        | cons w ws2 =>
          refine ⟨c :: u1, u2b, by rw [hu12]; rfl, ?_, hu2⟩
          rw [hflat, List.flatten_cons, ← List.cons_append]
          refine lang_star_cons (by simp) ?_ ?_
          · exact qstring_cons hc (hws w (List.mem_cons_self _ _)).2
          · rw [Lang]
            exact ⟨ws2, fun x hx => hws x (List.mem_cons_of_mem _ hx), rfl⟩

/-- The scanner accepts exactly the words of the not_string prefix: a run
of complete single-quoted strings followed by a quote-free run. -/
theorem scan_iff (u : List Char) : scanFrom .out u = .out ↔
    ∃ u1 u2, u = u1 ++ u2 ∧ Lang (.star qString false) u1 ∧ (∀ c ∈ u2, ¬ c = qc) := by
  constructor
  · exact scan_out_decomp u.length u (le_refl _)
  · rintro ⟨u1, u2, rfl, h1, h2⟩
    rw [scan_append, scan_out_qrunstar h1]
    exact scan_out_qfree u2 h2

/-- Spec-side string parser, modelled from the spec's words: a
single-quoted string literal is a quote, then any run of escaped
backslashes, escaped quotes, or ordinary characters, then a closing
quote; strings are paired left to right from the start of the line.
The arguments are the unread suffix, its absolute position, and the start
position of the currently open string, when one is open. A dangling
backslash with an invalid escape, or a string left open at end of line,
is not a syntactically valid string, so no further span is produced. -/
def specSpansGo : List Char → Nat → Option Nat → List (Nat × Nat)
  | [], _, _ => []
  | c :: rest, i, none =>
      if c = qc then specSpansGo rest (i + 1) (some i)
      else specSpansGo rest (i + 1) none
  | c :: rest, i, some s0 =>
      if c = qc then (s0, i + 1) :: specSpansGo rest (i + 1) none
      else if c = bsl then
        match rest with
        | [] => []
        | d :: rest2 =>
            if d = bsl ∨ d = qc then specSpansGo rest2 (i + 2) (some s0) else []
      else specSpansGo rest (i + 1) (some s0)

/-- The spans (start of opening quote, one past closing quote) of every
syntactically valid balanced single-quoted string of the line, counted
from line start — the claim-side reading of the spec. -/
def specStringSpans (l : List Char) : List (Nat × Nat) :=
  specSpansGo l 0 none

/-- The claim-side statement that an occurrence of length n at position p
lies inside some syntactically valid balanced single-quoted string of the
line, strictly between its quotes. -/
def insideOcc (l : List Char) (p n : Nat) : Prop :=
  ∃ sp ∈ specStringSpans l, sp.1 < p ∧ p + n < sp.2

/-- The claim-side statement that the word t occurs in l at position p. -/
def occursAt (t l : List Char) (p : Nat) : Prop :=
  (l.drop p).take t.length = t

instance insideOccDec (l : List Char) (p n : Nat) : Decidable (insideOcc l p n) :=
  inferInstanceAs (Decidable (∃ sp ∈ specStringSpans l, sp.1 < p ∧ p + n < sp.2))

instance occursAtDec (t l : List Char) (p : Nat) : Decidable (occursAt t l p) :=
  inferInstanceAs (Decidable ((l.drop p).take t.length = t))

/-- Positions properly inside a produced string span never scan to the
outside state: the parser's spans cover exactly stretches the scanner
spends inside a string. -/
theorem spans_cover : ∀ (n : Nat) (u : List Char) (i : Nat) (flag : Option Nat)
    (l : List Char), u.length ≤ n → u = l.drop i →
    (match flag with
     | none => scanFrom .out (l.take i) = .out
     | some s0 => scanFrom .out (l.take i) = .ins ∧
         ∀ x, s0 < x → x ≤ i → ¬ scanFrom .out (l.take x) = .out) →
    ∀ sp ∈ specSpansGo u i flag, ∀ x, sp.1 < x → x < sp.2 →
      ¬ scanFrom .out (l.take x) = .out := by
  intro n
  induction n with
  | zero =>
    intro u i flag l hlen hdrop hinv sp hsp
    have : u = [] := List.length_eq_zero.mp (by omega)
    rw [this] at hsp
    simp [specSpansGo] at hsp
  | succ n ih =>
    intro u i flag l hlen hdrop hinv sp hsp x hx1 hx2
    cases u with
    | nil => simp [specSpansGo] at hsp
    | cons c rest =>
      have hci : l[i]? = some c := by
        rw [← List.head?_drop, ← hdrop]
        rfl
      have hrest : rest = l.drop (i + 1) := by
        calc rest = List.drop 1 (c :: rest) := rfl
          _ = List.drop 1 (l.drop i) := by rw [← hdrop]
          _ = l.drop (i + 1) := List.drop_drop 1 i l
      have htake : l.take (i + 1) = l.take i ++ [c] := by
        rw [List.take_succ, hci]
        rfl
      have hscan1 : scanFrom .out (l.take (i + 1)) =
          sstep (scanFrom .out (l.take i)) c := by
        rw [htake, scan_append]
        rfl
      cases flag with
      | none =>
        simp only at hinv
        rw [specSpansGo.eq_2] at hsp
        by_cases hc : c = qc
        · rw [if_pos hc] at hsp
          subst hc
          refine ih rest (i + 1) (some i) l (by simp at hlen ⊢; omega) hrest
            ?_ sp hsp x hx1 hx2
          constructor
          · rw [hscan1, hinv]
            decide
          · intro y hy1 hy2 hcon
            have : y = i + 1 := by omega
            rw [this, hscan1, hinv] at hcon
            exact absurd hcon (by decide)
        · rw [if_neg hc] at hsp
          refine ih rest (i + 1) none l (by simp at hlen ⊢; omega) hrest
            ?_ sp hsp x hx1 hx2
          rw [hscan1, hinv]
          simp [sstep, hc]
      | some s0 =>
        simp only at hinv
        obtain ⟨hins, hcover⟩ := hinv
        cases rest with
        | nil =>
          rw [specSpansGo.eq_3] at hsp
          by_cases hc : c = qc
          · rw [if_pos hc] at hsp
            rcases List.mem_cons.mp hsp with rfl | hsp2
            · exact hcover x hx1 (by simpa using Nat.lt_succ_iff.mp hx2)
            · simp [specSpansGo] at hsp2
          · rw [if_neg hc] at hsp
            by_cases hb : c = bsl
            · rw [if_pos hb] at hsp
              simp at hsp
            · rw [if_neg hb] at hsp
              simp [specSpansGo] at hsp
        | cons d rest2 =>
          rw [specSpansGo.eq_4] at hsp
          by_cases hc : c = qc
          · rw [if_pos hc] at hsp
            subst hc
            rcases List.mem_cons.mp hsp with rfl | hsp2
            · exact hcover x hx1 (by simpa using Nat.lt_succ_iff.mp hx2)
            · refine ih (d :: rest2) (i + 1) none l (by simp at hlen ⊢; omega) hrest
                ?_ sp hsp2 x hx1 hx2
              show scanFrom SState.out (l.take (i + 1)) = SState.out
              rw [hscan1, hins]
              decide
          · rw [if_neg hc] at hsp
            by_cases hb : c = bsl
            · rw [if_pos hb] at hsp
              subst hb
              by_cases hd : d = bsl ∨ d = qc
              · rw [if_pos hd] at hsp
                have hdi : l[i + 1]? = some d := by
                  rw [← List.head?_drop, ← hrest]
                  rfl
                have hrest2 : rest2 = l.drop (i + 2) := by
                  calc rest2 = List.drop 1 (d :: rest2) := rfl
                    _ = List.drop 1 (l.drop (i + 1)) := by rw [← hrest]
                    _ = l.drop (i + 2) := List.drop_drop 1 (i + 1) l
                have htake2 : l.take (i + 2) = l.take (i + 1) ++ [d] := by
                  rw [List.take_succ, hdi]
                  rfl
                have hscan2 : scanFrom .out (l.take (i + 2)) =
                    sstep (sstep (scanFrom .out (l.take i)) bsl) d := by
                  rw [htake2, scan_append, hscan1]
                  rfl
                refine ih rest2 (i + 2) (some s0) l (by simp at hlen ⊢; omega)
                  hrest2 ?_ sp hsp x hx1 hx2
                constructor
                · rw [hscan2, hins, show sstep SState.ins bsl = SState.esc by decide]
                  simp [sstep, hd]
                · intro y hy1 hy2
                  rcases Nat.lt_or_ge y (i + 1) with hy3 | hy3
                  · exact hcover y hy1 (by omega)
                  · rcases Nat.lt_or_ge y (i + 2) with hy4 | hy4
                    · have : y = i + 1 := by omega
                      rw [this, hscan1, hins,
                        show sstep SState.ins bsl = SState.esc by decide]
                      decide
                    · have : y = i + 2 := by omega
                      rw [this, hscan2, hins,
                        show sstep SState.ins bsl = SState.esc by decide]
                      intro hcon
                      rw [show sstep SState.esc d = SState.ins by simp [sstep, hd]] at hcon
                      exact absurd hcon (by decide)
              · rw [if_neg hd] at hsp
                simp at hsp
            · rw [if_neg hb] at hsp
              refine ih (d :: rest2) (i + 1) (some s0) l (by simp at hlen ⊢; omega) hrest
                ?_ sp hsp x hx1 hx2
              constructor
              · rw [hscan1, hins]
                simp [sstep, hc, hb]
              · intro y hy1 hy2
                rcases Nat.lt_or_ge y (i + 1) with hy3 | hy3
                · exact hcover y hy1 (by omega)
                · have : y = i + 1 := by omega
                  rw [this, hscan1, hins]
                  simp [sstep, hc, hb]

/-- A position whose prefix scans to the outside state is not inside any
balanced single-quoted string of the line. -/
theorem scan_out_not_inside {l : List Char} {p n : Nat}
    (h : scanFrom .out (l.take p) = .out) : ¬ insideOcc l p n := by
  rintro ⟨sp, hsp, h1, h2⟩
  refine spans_cover l.length l 0 none l (le_refl _) (by rw [List.drop_zero])
    (by simp [scanFrom]) sp hsp p h1 (by omega) h

/-- Literal patterns are context-free. -/
theorem strLit_laFree : ∀ (t : List Char), (Re.strLit t).laFree = true := by
  intro t
  induction t with
  | nil => rfl
  | cons c t ih =>
    rw [Re.strLit, List.foldr_cons]
    show ((Re.ch c).seq (Re.strLit t)).laFree = true
    rw [Re.laFree, Bool.and_eq_true]
    exact ⟨rfl, ih⟩

/-- An initial segment is a take. -/
theorem seg_zero (l : List Char) (m : Nat) : seg l 0 m = l.take m := by
  simp [seg]

/-- The not_string transform of a non-empty literal target matches a line
exactly when the target occurs at a position whose prefix is a run of
complete single-quoted strings followed by a quote-free run (a prefix the
quote scanner accepts). -/
theorem notString_hit_iff {t : List Char} (l : List Char) (ht : t ≠ []) :
    searchHit (notString (Re.strLit t)) l = true ↔
    ∃ p, occursAt t l p ∧ scanFrom .out (l.take p) = .out := by
  rw [notString, searchHit_anchored_iff]
  constructor
  · rintro ⟨q, hsem⟩
    rw [Sem] at hsem
    obtain ⟨m1, hq1, hsem2⟩ := hsem
    rw [Sem] at hsem2
    obtain ⟨m2, hq2, hsem3⟩ := hsem2
    have hb1 := sem_bounds _ l 0 m1 hq1
    have hm1L : m1 ≤ l.length := hb1.2 (Nat.zero_le _)
    have hb2 := sem_bounds _ l m1 m2 hq2
    have hm2L : m2 ≤ l.length := hb2.2 hm1L
    have hb3 := sem_bounds _ l m2 q hsem3
    have hqL : q ≤ l.length := hb3.2 hm2L
    have hL1 := (sem_iff_lang (.star qString false) rfl l 0 m1 (Nat.zero_le _)).mp hq1
    have hL2 := (sem_iff_lang (.star notQuoteC false) rfl l m1 m2 hm1L).mp hq2
    have hL3 := (sem_iff_lang _ (strLit_laFree t) l m2 q hm2L).mp hsem3
    have hocc : seg l m2 q = t := (lang_strLit_iff t _).mp hL3.2.2
    have hqlen : q = m2 + t.length := by
      have hsl := seg_len hb3.1 hqL
      rw [hocc] at hsl
      omega
    refine ⟨m2, ?_, ?_⟩
    · rw [occursAt]
      have hqm : t.length = q - m2 := by omega
      rw [hqm]
      exact hocc
    · have hsplit : l.take m2 = seg l 0 m1 ++ seg l m1 m2 := by
        rw [← seg_zero, seg_append (Nat.zero_le m1) hb2.1]
      rw [hsplit, scan_append, scan_out_qrunstar hL1.2.2]
      apply scan_out_qfree
      intro c hc
      have hl2 := hL2.2.2
      rw [notQuoteC] at hl2
      have := lang_star_pred_iff.mp hl2 c hc
      simpa using this
  · rintro ⟨p, hocc, hscan⟩
    rw [occursAt] at hocc
    have ht1 : 0 < t.length := List.length_pos.mpr ht
    have hlen : p + t.length ≤ l.length := by
      have hc := congrArg List.length hocc
      simp only [List.length_take, List.length_drop] at hc
      omega
    have hpL : p ≤ l.length := by omega
    obtain ⟨u1, u2, hu12, hu1, hu2⟩ := (scan_iff (l.take p)).mp hscan
    have htplen : (l.take p).length = p := by
      simp only [List.length_take]
      omega
    have hm1 : u1.length ≤ p := by
      have := congrArg List.length hu12
      rw [htplen] at this
      simp only [List.length_append] at this
      omega
    have hs1 : seg l 0 u1.length = u1 := by
      rw [seg_zero]
      have h1 : l.take u1.length = (l.take p).take u1.length := by
        rw [List.take_take]
        congr 1
        omega
      rw [h1, hu12, List.take_left]
    have hs2 : seg l u1.length p = u2 := by
      have h4 : seg l 0 p = seg l 0 u1.length ++ seg l u1.length p :=
        seg_append (Nat.zero_le _) hm1
      rw [seg_zero, hu12, hs1] at h4
      exact (List.append_cancel_left h4).symm
    have hsem1 : Sem (.star qString false) l 0 u1.length :=
      (sem_iff_lang (.star qString false) rfl l 0 u1.length (Nat.zero_le _)).mpr
        ⟨Nat.zero_le _, by omega, by rw [hs1]; exact hu1⟩
    have hsem2 : Sem (.star notQuoteC false) l u1.length p := by
      refine (sem_iff_lang (.star notQuoteC false) rfl l u1.length p (by omega)).mpr ⟨hm1, hpL, ?_⟩
      rw [hs2, notQuoteC]
      exact lang_star_pred_iff.mpr (fun c hc => by simpa using hu2 c hc)
    have hsem3 : Sem (Re.strLit t) l p (p + t.length) := by
      refine (sem_iff_lang _ (strLit_laFree t) l p (p + t.length) hpL).mpr
        ⟨by omega, hlen, ?_⟩
      rw [lang_strLit_iff]
      rw [seg, show p + t.length - p = t.length by omega]
      exact hocc
    refine ⟨p + t.length, ?_⟩
    rw [Sem]
    refine ⟨u1.length, hsem1, ?_⟩
    rw [Sem]
    exact ⟨p, hsem2, hsem3⟩

/-- Repetition is monotone in the body pattern. -/
theorem sem_star_mono {r r2 : Re} {lz lz2 : Bool} {l : List Char} {a b : Nat}
    (hsub : ∀ x y, Sem r2 l x y → Sem r l x y) :
    Sem (.star r2 lz2) l a b → Sem (.star r lz) l a b := by
  rw [Sem, Sem]
  exact Relation.ReflTransGen.mono (fun x y h => ⟨h.1, h.2.1, hsub x y h.2.2⟩)

/-- A non-empty literal pattern pins down the first character it reads. -/
theorem sem_strLit_first {c : Char} {t : List Char} {l : List Char} {a b : Nat}
    (h : Sem (Re.strLit (c :: t)) l a b) : l[a]? = some c := by
  rw [Re.strLit, List.foldr_cons] at h
  rw [show ((Re.ch c).seq (t.foldr (fun c acc => (Re.ch c).seq acc) Re.eps) : Re) =
    (Re.ch c).seq (Re.strLit t) from rfl] at h
  rw [Sem] at h
  obtain ⟨m, h1, _⟩ := h
  rw [Re.ch, Sem] at h1
  obtain ⟨_, d, hd, hdc⟩ := h1
  simp only [decide_eq_true_eq] at hdc
  rw [hdc] at hd
  exact hd

/-- Decompose a match of the not_string body: the target pattern matches
from a position whose prefix the quote scanner accepts. -/
theorem notString_sem_decomp {r : Re} {l : List Char} {q : Nat}
    (h : Sem (.seq (.star qString false) (.seq (.star notQuoteC false) r)) l 0 q) :
    ∃ m2, m2 ≤ l.length ∧ scanFrom .out (l.take m2) = .out ∧ Sem r l m2 q := by
  rw [Sem] at h
  obtain ⟨m1, hq1, hsem2⟩ := h
  rw [Sem] at hsem2
  obtain ⟨m2, hq2, hsem3⟩ := hsem2
  have hb1 := sem_bounds _ l 0 m1 hq1
  have hm1L : m1 ≤ l.length := hb1.2 (Nat.zero_le _)
  have hb2 := sem_bounds _ l m1 m2 hq2
  have hm2L : m2 ≤ l.length := hb2.2 hm1L
  have hL1 := (sem_iff_lang (.star qString false) rfl l 0 m1 (Nat.zero_le _)).mp hq1
  have hL2 := (sem_iff_lang (.star notQuoteC false) rfl l m1 m2 hm1L).mp hq2
  refine ⟨m2, hm2L, ?_, hsem3⟩
  have hsplit : l.take m2 = seg l 0 m1 ++ seg l m1 m2 := by
    rw [← seg_zero, seg_append (Nat.zero_le m1) hb2.1]
  rw [hsplit, scan_append, scan_out_qrunstar hL1.2.2]
  apply scan_out_qfree
  intro c hc
  have hl2 := hL2.2.2
  rw [notQuoteC] at hl2
  have := lang_star_pred_iff.mp hl2 c hc
  simpa using this

/-- From a non-outside state, quote-free text never reaches the outside
state. -/
theorem scan_qfree_not_out : ∀ (u : List Char) (st : SState),
    (∀ c ∈ u, ¬ c = qc) → ¬ st = .out → ¬ scanFrom st u = .out := by
  intro u
  induction u with
  | nil => intro st _ hst; simpa [scanFrom] using hst
  | cons c u ih =>
    intro st hq hst
    have hc := hq c (List.mem_cons_self _ _)
    have hstep : ¬ sstep st c = .out := by
      cases st with
      | out => exact absurd rfl hst
      | ins =>
        simp only [sstep, if_neg hc]
        split <;> simp
      | esc =>
        simp only [sstep]
        split <;> simp
      | dead => simp [sstep]
    rw [scanFrom, List.foldl_cons]
    exact ih (sstep st c) (fun d hd => hq d (List.mem_cons_of_mem _ hd)) hstep

/-- The middle factor of a three-way concatenation is its own segment. -/
theorem seg_of_append (A B C : List Char) :
    seg (A ++ B ++ C) A.length (A.length + B.length) = B := by
  rw [seg, show A.length + B.length - A.length = B.length by omega]
  rw [List.append_assoc, List.drop_left, List.take_left]

/-- A sub-slice of a segment is the segment of the shifted positions. -/
theorem seg_sub {l : List Char} {a z : Nat} {i j : Nat} (hij : i ≤ j)
    (hjz : j ≤ z - a) :
    seg l (a + i) (a + j) = ((seg l a z).drop i).take (j - i) := by
  rw [seg, seg, List.drop_take, List.drop_drop, List.take_take]
  rw [show a + j - (a + i) = j - i by omega, show (j - i) ⊓ (z - a - i) = j - i by
    simp [Nat.min_def]; omega]

/-- Assemble a search hit for a not_string pattern from a scanner-accepted
prefix and a match of the inner pattern right after it. -/
theorem notString_hit_of_suffix {x : Re} {l : List Char} {a z : Nat}
    (ha : a ≤ l.length) (hscan : scanFrom .out (l.take a) = .out)
    (hsem : Sem x l a z) : searchHit (notString x) l = true := by
  rw [notString, searchHit_anchored_iff]
  obtain ⟨u1, u2, hu12, hu1, hu2⟩ := (scan_iff (l.take a)).mp hscan
  have htplen : (l.take a).length = a := by
    simp only [List.length_take]
    omega
  have hm1 : u1.length ≤ a := by
    have := congrArg List.length hu12
    rw [htplen] at this
    simp only [List.length_append] at this
    omega
  have hs1 : seg l 0 u1.length = u1 := by
    rw [seg_zero]
    have h1 : l.take u1.length = (l.take a).take u1.length := by
      rw [List.take_take]
      congr 1
      omega
    rw [h1, hu12, List.take_left]
  have hs2 : seg l u1.length a = u2 := by
    have h4 : seg l 0 a = seg l 0 u1.length ++ seg l u1.length a :=
      seg_append (Nat.zero_le _) hm1
    rw [seg_zero, hu12, hs1] at h4
    exact (List.append_cancel_left h4).symm
  have hsem1 : Sem (.star qString false) l 0 u1.length :=
    (sem_iff_lang (.star qString false) rfl l 0 u1.length (Nat.zero_le _)).mpr
      ⟨Nat.zero_le _, by omega, by rw [hs1]; exact hu1⟩
  have hsem2 : Sem (.star notQuoteC false) l u1.length a := by
    refine (sem_iff_lang (.star notQuoteC false) rfl l u1.length a (by omega)).mpr
      ⟨hm1, ha, ?_⟩
    rw [hs2, notQuoteC]
    exact lang_star_pred_iff.mpr (fun c hc => by simpa using hu2 c hc)
  refine ⟨z, ?_⟩
  rw [Sem]
  refine ⟨u1.length, hsem1, ?_⟩
  rw [Sem]
  exact ⟨a, hsem2, hsem⟩

/-- The line-comment shape matches any segment made of the two slashes, a
newline-free run, and a word of the target pattern. -/
theorem sem_lineC_of_word {r : Re} (hr : r.laFree = true) {l : List Char}
    {a z : Nat} {v X2 : List Char} (ha : a ≤ l.length) (hz : z ≤ l.length)
    (haz : a ≤ z) (hseg : seg l a z = '/' :: '/' :: (v ++ X2))
    (hv : ∀ c ∈ v, ¬ c = nlc) (hX : Lang r X2) : Sem (commentLine r) l a z := by
  refine (sem_iff_lang (commentLine r) ?_ l a z ha).mpr ⟨haz, hz, ?_⟩
  · simp [commentLine, Re.laFree, strLit_laFree, dotC, hr]
  · rw [hseg, commentLine, Lang]
    refine ⟨['/', '/'], v ++ X2, rfl, lang_strLit_iff _ _ |>.mpr rfl, ?_⟩
    rw [Lang]
    refine ⟨v, X2, rfl, ?_, hX⟩
    rw [dotC]
    exact lang_star_pred_iff.mpr (fun c hc => by simpa using hv c hc)

/-- The block-comment shape matches any segment made of the opener, a
star-free run, a word of the target pattern, a newline-free run, and the
closer. -/
theorem sem_blockC_of_word {r : Re} (hr : r.laFree = true) {l : List Char}
    {a z : Nat} {b X2 m : List Char} (ha : a ≤ l.length) (hz : z ≤ l.length)
    (haz : a ≤ z)
    (hseg : seg l a z = '/' :: '*' :: (b ++ (X2 ++ (m ++ ['*', '/']))))
    (hb : ∀ c ∈ b, ¬ c = '*') (hm : ∀ c ∈ m, ¬ c = nlc) (hX : Lang r X2) :
    Sem (commentBlock r) l a z := by
  have hwlen : z = a + (2 + b.length + X2.length + m.length + 2) := by
    have hsl := seg_len haz hz
    rw [hseg] at hsl
    simp at hsl
    omega
  have hsub := fun {i j : Nat} (hij : i ≤ j) (hjz : j ≤ z - a) =>
    seg_sub (l := l) (a := a) (z := z) hij hjz
  have hw := hseg
  set w := '/' :: '*' :: (b ++ (X2 ++ (m ++ ['*', '/']))) with hwdef
  have hd2 : w.drop 2 = b ++ (X2 ++ (m ++ ['*', '/'])) := rfl
  have hdb : w.drop (2 + b.length) = X2 ++ (m ++ ['*', '/']) := by
    calc w.drop (2 + b.length) = (w.drop 2).drop b.length :=
          (List.drop_drop b.length 2 w).symm
      _ = X2 ++ (m ++ ['*', '/']) := by rw [hd2]; exact List.drop_left _ _
  have hdX : w.drop (2 + b.length + X2.length) = m ++ ['*', '/'] := by
    calc w.drop (2 + b.length + X2.length)
        = (w.drop (2 + b.length)).drop X2.length := by
          rw [List.drop_drop]
      _ = m ++ ['*', '/'] := by rw [hdb]; exact List.drop_left _ _
  have hdm : w.drop (2 + b.length + X2.length + m.length) = ['*', '/'] := by
    calc w.drop (2 + b.length + X2.length + m.length)
        = (w.drop (2 + b.length + X2.length)).drop m.length := by
          rw [List.drop_drop]
      _ = ['*', '/'] := by rw [hdX]; exact List.drop_left _ _
  have h1 : seg l a (a + 2) = ['/', '*'] := by
    have h := hsub (i := 0) (j := 2) (by omega) (by omega)
    rw [hw] at h
    simpa using h
  have h2 : seg l (a + 2) (a + (2 + b.length)) = b := by
    have h := hsub (i := 2) (j := 2 + b.length) (by omega) (by omega)
    rw [hw] at h
    rw [h, hd2, show 2 + b.length - 2 = b.length by omega, List.take_left]
  have h3 : seg l (a + (2 + b.length)) (a + (2 + b.length + X2.length)) = X2 := by
    have h := hsub (i := 2 + b.length) (j := 2 + b.length + X2.length)
      (by omega) (by omega)
    rw [hw] at h
    rw [h, hdb, show 2 + b.length + X2.length - (2 + b.length) = X2.length by omega,
      List.take_left]
  have h4 : seg l (a + (2 + b.length + X2.length))
      (a + (2 + b.length + X2.length + m.length)) = m := by
    have h := hsub (i := 2 + b.length + X2.length)
      (j := 2 + b.length + X2.length + m.length) (by omega) (by omega)
    rw [hw] at h
    rw [h, hdX, show 2 + b.length + X2.length + m.length -
      (2 + b.length + X2.length) = m.length by omega, List.take_left]
  have h5 : seg l (a + (2 + b.length + X2.length + m.length)) z = ['*', '/'] := by
    have h := hsub (i := 2 + b.length + X2.length + m.length)
      (j := 2 + b.length + X2.length + m.length + 2) (by omega) (by omega)
    rw [hw] at h
    rw [show z = a + (2 + b.length + X2.length + m.length + 2) from hwlen, h, hdm,
      show 2 + b.length + X2.length + m.length + 2 -
        (2 + b.length + X2.length + m.length) = 2 by omega]
    rfl
  have f1 : Sem (Re.strLit "/*".toList) l a (a + 2) := by
    refine (sem_iff_lang _ (strLit_laFree _) l a (a + 2) ha).mpr
      ⟨by omega, by omega, ?_⟩
    rw [h1]
    exact (lang_strLit_iff _ _).mpr rfl
  have f2 : Sem (.star (.alt (.seq (Re.ch '*') (.lookNeg (Re.ch '/')))
      (.cpred (fun x => ¬ x = '*'))) true) l (a + 2) (a + (2 + b.length)) := by
    refine @sem_star_mono _ (.cpred (fun x => ¬ x = '*')) _ true l (a + 2)
      (a + (2 + b.length)) (fun x y h => by rw [Sem]; exact Or.inr h) ?_
    refine (sem_iff_lang (.star (.cpred (fun x => ¬ x = '*')) true) rfl l _ _
      (by omega)).mpr ⟨by omega, by omega, ?_⟩
    rw [h2]
    exact lang_star_pred_iff.mpr (fun c hc => by simpa using hb c hc)
  have f3 : Sem (.group "c" r) l (a + (2 + b.length))
      (a + (2 + b.length + X2.length)) := by
    rw [Sem]
    refine (sem_iff_lang r hr l _ _ (by omega)).mpr ⟨by omega, by omega, ?_⟩
    rw [h3]
    exact hX
  have f4 : Sem (.star dotC true) l (a + (2 + b.length + X2.length))
      (a + (2 + b.length + X2.length + m.length)) := by
    refine (sem_iff_lang (.star dotC true) rfl l _ _ (by omega)).mpr
      ⟨by omega, by omega, ?_⟩
    rw [h4, dotC]
    exact lang_star_pred_iff.mpr (fun c hc => by simpa using hm c hc)
  have f5 : Sem (Re.strLit "*/".toList) l
      (a + (2 + b.length + X2.length + m.length)) z := by
    refine (sem_iff_lang _ (strLit_laFree _) l _ _ (by omega)).mpr
      ⟨by omega, by omega, ?_⟩
    rw [h5]
    exact (lang_strLit_iff _ _).mpr rfl
  rw [commentBlock, Sem]
  refine ⟨a + 2, f1, ?_⟩
  rw [Sem]
  refine ⟨a + (2 + b.length), f2, ?_⟩
  rw [Sem]
  refine ⟨a + (2 + b.length + X2.length), f3, ?_⟩
  rw [Sem]
  exact ⟨a + (2 + b.length + X2.length + m.length), f4, f5⟩

/-- Both comment shapes begin by reading a slash. -/
theorem comment_alt_first {r : Re} {l : List Char} {m2 q : Nat}
    (h : Sem (.alt (commentBlock r) (commentLine r)) l m2 q) :
    l[m2]? = some '/' := by
  rw [Sem] at h
  rcases h with h2 | h2
  · rw [commentBlock, Sem] at h2
    obtain ⟨mm, hfirst, _⟩ := h2
    rw [show ("/*".toList : List Char) = '/' :: ['*'] from rfl] at hfirst
    exact sem_strLit_first hfirst
  · rw [commentLine, Sem] at h2
    obtain ⟨mm, hfirst, _⟩ := h2
    rw [show ("//".toList : List Char) = '/' :: ['/'] from rfl] at hfirst
    exact sem_strLit_first hfirst

/-- On a line without any slash, the comment pattern of any target never
matches. -/
theorem comment_noslash {r : Re} {l : List Char} (h : ∀ c ∈ l, ¬ c = '/') :
    searchHit (commentRe r) l = false := by
  by_contra hne
  rw [Bool.not_eq_false, commentRe, notString, searchHit_anchored_iff] at hne
  obtain ⟨q, hsem⟩ := hne
  obtain ⟨m2, hm2L, hscan, hsem2⟩ := notString_sem_decomp hsem
  exact h '/' (List.getElem?_mem (comment_alt_first hsem2)) rfl

/-- On a line that is exactly one single-quoted string with quote-free
contents, the comment pattern of any target never matches, even when the
string contents are shaped like a comment. -/
theorem comment_in_string {r : Re} {s : List Char} (hs : ∀ c ∈ s, ¬ c = qc) :
    searchHit (commentRe r) (qc :: (s ++ [qc])) = false := by
  by_contra hne
  rw [Bool.not_eq_false, commentRe, notString, searchHit_anchored_iff] at hne
  obtain ⟨q, hsem⟩ := hne
  obtain ⟨m2, hm2L, hscan, hsem2⟩ := notString_sem_decomp hsem
  have hsl : (qc :: (s ++ [qc]))[m2]? = some '/' := comment_alt_first hsem2
  have hm2lt : m2 < (qc :: (s ++ [qc])).length := (List.getElem?_eq_some_iff.mp hsl).1
  cases m2 with
  | zero =>
    rw [List.getElem?_cons_zero] at hsl
    have : qc = '/' := by injection hsl
    exact absurd this (by decide)
  | succ k =>
    have hkle : k ≤ s.length := by
      have h2 := hm2lt
      simp at h2
      omega
    have htk : (qc :: (s ++ [qc])).take (k + 1) = qc :: s.take k := by
      rw [List.take_succ_cons, List.take_append_of_le_length hkle]
    rw [htk] at hscan
    have hscan2 : scanFrom .out (qc :: s.take k) = scanFrom .ins (s.take k) := by
      rw [scanFrom, List.foldl_cons, show sstep SState.out qc = SState.ins by decide]
      rfl
    rw [hscan2] at hscan
    refine scan_qfree_not_out (s.take k) .ins ?_ (by decide) hscan
    intro c hc
    exact hs c (List.take_subset k s hc)

/-- The comment pattern of a literal target matches any line holding two
slashes, then a newline-free run, then the target, after a quote-free
lead-in. -/
theorem comment_hit_line {X u v w : List Char} (hu : ∀ c ∈ u, ¬ c = qc)
    (hv : ∀ c ∈ v, ¬ c = nlc) :
    searchHit (commentRe (Re.strLit X)) (u ++ ('/' :: '/' :: (v ++ X)) ++ w)
      = true := by
  set M := '/' :: '/' :: (v ++ X) with hM
  rw [commentRe]
  have hlen : (u ++ M ++ w).length = u.length + M.length + w.length := by
    simp
    omega
  refine notString_hit_of_suffix (a := u.length) (z := u.length + M.length)
    (by omega) ?_ ?_
  · rw [List.append_assoc, List.take_left]
    exact scan_out_qfree u hu
  · rw [Sem]
    refine Or.inr (sem_lineC_of_word (strLit_laFree X) (by omega) (by omega)
      (by omega) ?_ hv ((lang_strLit_iff X X).mpr rfl))
    exact seg_of_append u M w

/-- The comment pattern of a literal target matches any line holding a
block comment whose body reaches the target before the closer, after a
quote-free lead-in. -/
theorem comment_hit_block {X u b m w : List Char} (hu : ∀ c ∈ u, ¬ c = qc)
    (hb : ∀ c ∈ b, ¬ c = '*') (hm : ∀ c ∈ m, ¬ c = nlc) :
    searchHit (commentRe (Re.strLit X))
      (u ++ ('/' :: '*' :: (b ++ (X ++ (m ++ ['*', '/'])))) ++ w) = true := by
  set M := '/' :: '*' :: (b ++ (X ++ (m ++ ['*', '/']))) with hM
  rw [commentRe]
  have hlen : (u ++ M ++ w).length = u.length + M.length + w.length := by
    simp
    omega
  refine notString_hit_of_suffix (a := u.length) (z := u.length + M.length)
    (by omega) ?_ ?_
  · rw [List.append_assoc, List.take_left]
    exact scan_out_qfree u hu
  · rw [Sem]
    refine Or.inl (sem_blockC_of_word (strLit_laFree X) (by omega) (by omega)
      (by omega) ?_ hb hm ((lang_strLit_iff X X).mpr rfl))
    exact seg_of_append u M w

/-- Every error a validator reports on a line carries a finditer match of
its invalid pattern and the validator's message. -/
theorem errors_mem {v : Validator} {line : String} {sup : Bool} {e : Error}
    (h : e ∈ v.errors line sup) :
    e.mtch ∈ finditer v.invalid line.toList ∧ e.message = v.message := by
  rw [Validator.errors] at h
  split at h
  · exact absurd h (List.not_mem_nil _)
  · obtain ⟨m, hm, rfl⟩ := List.mem_map.mp h
    exact ⟨hm, rfl⟩

/-- Every message the line scanner yields comes from some validator of
the given list (the unfiltered parameter), on some enumerated stripped
line that did not trip the NOQA guard, wrapping one of the validator's
errors. -/
theorem linesScan_mem {ls : List String} {path : ApexPath} {sup : Bool}
    {vs : List Validator} {msg : Message} (h : msg ∈ linesScan ls path sup vs) :
    ∃ v ∈ vs, ∃ lineno line,
      (lineno, line) ∈ (ls.map rstripNl).enumFrom 1 ∧
      ¬ (sup && searchHit NOQA line.toList) = true ∧
      ∃ e ∈ v.errors line sup,
      msg = Message.mk (Location.mk lineno e.mtch path) e.message line := by
  rw [linesScan] at h
  split at h
  · exact absurd h (List.not_mem_nil _)
  · obtain ⟨⟨lineno, line⟩, henum, h2⟩ := List.mem_flatMap.mp h
    split at h2
    · exact absurd h2 (List.not_mem_nil _)
    · next hguard =>
      obtain ⟨v, hv, h3⟩ := List.mem_flatMap.mp h2
      obtain ⟨e, he, heq⟩ := List.mem_map.mp h3
      exact ⟨v, hv, lineno, line, henum, hguard, e, he, heq.symm⟩

/-- splitLines unfolded on a cons cell. -/
theorem splitLines_cons (c : Char) (rest : List Char) :
    splitLines (c :: rest) =
      if c = nlc then [] :: splitLines rest
      else match splitLines rest with
        | [] => [[c]]
        | h :: t => (c :: h) :: t := rfl

/-- splitLines never returns the empty list of lines. -/
theorem splitLines_ne_nil (l : List Char) : splitLines l ≠ [] := by
  cases l with
  | nil => simp [splitLines]
  | cons c rest =>
    rw [splitLines_cons]
    split
    · simp
    · split <;> simp

/-- splitLines distributes over an interior newline. -/
theorem splitLines_append_nl : ∀ u v : List Char,
    splitLines (u ++ nlc :: v) = splitLines u ++ splitLines v := by
  intro u v
  induction u with
  | nil =>
    rw [List.nil_append, splitLines_cons, if_pos rfl]
    rfl
  | cons c u ih =>
    rw [List.cons_append, splitLines_cons, splitLines_cons]
    by_cases hc : c = nlc
    · rw [if_pos hc, if_pos hc, ih, List.cons_append]
    · rw [if_neg hc, if_neg hc, ih]
      cases hu : splitLines u with
      | nil => exact absurd hu (splitLines_ne_nil u)
      | cons h t => simp

/-- splitLines of a newline-free list is that single line. -/
theorem splitLines_nlfree : ∀ l : List Char, (∀ c ∈ l, ¬ c = nlc) →
    splitLines l = [l] := by
  intro l
  induction l with
  | nil => intro _; rfl
  | cons c rest ih =>
    intro h
    rw [splitLines_cons, if_neg (h c (List.mem_cons_self c rest))]
    rw [ih (fun d hd => h d (List.mem_cons_of_mem c hd))]

/-- Every line splitLines produces is newline-free. -/
theorem splitLines_mem_nlfree : ∀ (l x : List Char),
    x ∈ splitLines l → ∀ c ∈ x, ¬ c = nlc := by
  intro l
  induction l with
  | nil =>
    intro x hx c hc
    rw [show splitLines [] = [[]] from rfl, List.mem_singleton] at hx
    subst hx
    cases hc
  | cons a rest ih =>
    intro x hx c hc
    rw [splitLines_cons] at hx
    by_cases ha : a = nlc
    · rw [if_pos ha] at hx
      rcases List.mem_cons.mp hx with h1 | h1
      · subst h1; cases hc
      · exact ih x h1 c hc
    · rw [if_neg ha] at hx
      cases hr : splitLines rest with
      | nil => exact absurd hr (splitLines_ne_nil rest)
      | cons a0 t0 =>
        rw [hr] at hx
        rcases List.mem_cons.mp hx with h1 | h1
        · subst h1
          rcases List.mem_cons.mp hc with h2 | h2
          · rw [h2]; exact ha
          · exact ih a0 (by rw [hr]; exact List.mem_cons_self a0 t0) c h2
        · exact ih x (by rw [hr]; exact List.mem_cons_of_mem a0 h1) c hc

/-- joinNl inverts splitLines on nonempty lists of newline-free lines. -/
theorem joinNl_splitLines : ∀ L : List (List Char), L ≠ [] →
    (∀ x ∈ L, ∀ c ∈ x, ¬ c = nlc) → splitLines (joinNl L) = L := by
  intro L
  induction L with
  | nil => intro h _; exact absurd rfl h
  | cons x ls ih =>
    intro _ hfree
    cases ls with
    | nil => exact splitLines_nlfree x (hfree x (List.mem_cons_self x []))
    | cons y t =>
      rw [show joinNl (x :: y :: t) = x ++ nlc :: joinNl (y :: t) from rfl]
      rw [splitLines_append_nl,
        splitLines_nlfree x (hfree x (List.mem_cons_self x (y :: t)))]
      rw [ih (by simp) (fun z hz c hc => hfree z (List.mem_cons_of_mem x hz) c hc)]
      rfl

/-- Newline-freeness is preserved by concatenation. -/
theorem nlfree_append {u v : List Char} (hu : ∀ c ∈ u, ¬ c = nlc)
    (hv : ∀ c ∈ v, ¬ c = nlc) : ∀ c ∈ u ++ v, ¬ c = nlc := by
  intro c hc
  rcases List.mem_append.mp hc with h | h
  · exact hu c h
  · exact hv c h

/-- Newline-freeness is preserved by consing a non-newline character. -/
theorem nlfree_cons {a : Char} {v : List Char} (ha : ¬ a = nlc)
    (hv : ∀ c ∈ v, ¬ c = nlc) : ∀ c ∈ a :: v, ¬ c = nlc := by
  intro c hc
  rcases List.mem_cons.mp hc with h | h
  · rw [h]; exact ha
  · exact hv c h

/-- Decimal digit characters are never the newline character. -/
theorem digitChar_ne_nl (m : Nat) (h : m < 10) : ¬ Nat.digitChar m = nlc := by
  interval_cases m <;> decide

/-- The core decimal digit expansion only adds digit characters. -/
theorem toDigitsCore_nlfree : ∀ (f n : Nat) (acc : List Char),
    (∀ c ∈ acc, ¬ c = nlc) → ∀ c ∈ Nat.toDigitsCore 10 f n acc, ¬ c = nlc := by
  intro f
  induction f with
  | zero => intro n acc hacc; exact hacc
  | succ f ih =>
    intro n acc hacc
    have hd : n % 10 < 10 := Nat.mod_lt n (by omega)
    show ∀ c ∈ (if n / 10 = 0 then Nat.digitChar (n % 10) :: acc
        else Nat.toDigitsCore 10 f (n / 10) (Nat.digitChar (n % 10) :: acc)),
      ¬ c = nlc
    split
    · exact nlfree_cons (digitChar_ne_nl (n % 10) hd) hacc
    · exact ih (n / 10) (Nat.digitChar (n % 10) :: acc)
        (nlfree_cons (digitChar_ne_nl (n % 10) hd) hacc)

/-- The decimal rendering of a natural number is newline-free. -/
theorem natToString_nlfree (n : Nat) : ∀ c ∈ (toString n).toList, ¬ c = nlc := by
  show ∀ c ∈ Nat.toDigitsCore 10 (n + 1) n [], ¬ c = nlc
  exact toDigitsCore_nlfree (n + 1) n []
    (fun c hc => absurd hc (List.not_mem_nil c))

/-- The decimal rendering of an integer is newline-free. -/
theorem intToString_nlfree (i : Int) : ∀ c ∈ (toString i).toList, ¬ c = nlc := by
  cases i with
  | ofNat m => exact natToString_nlfree m
  | negSucc m =>
    show ∀ c ∈ ("-" ++ toString m.succ).toList, ¬ c = nlc
    have hd : ("-" ++ toString m.succ).toList = '-' :: (toString m.succ).toList := by
      show ("-" ++ toString m.succ).data = _
      rw [String.data_append]
      rfl
    rw [hd]
    exact nlfree_cons (by decide) (natToString_nlfree m.succ)

/-- The summary component of split_message is newline-free. -/
theorem summary_nlfree (m : String) :
    ∀ c ∈ ((splitOnceNl m).1).toList, ¬ c = nlc := by
  have h1 : (splitOnceNl m).1
      = String.mk (m.toList.takeWhile (fun c => ¬ c = nlc)) := by
    simp only [splitOnceNl]
    split <;> rfl
  rw [h1]
  intro c hc
  have hc2 : c ∈ m.toList.takeWhile (fun c => decide (¬ c = nlc)) := hc
  have hc3 := List.mem_takeWhile_imp hc2
  exact of_decide_eq_true hc3

/-- The characters of the arrow underline, spelled out. -/
theorem arrow_toList (loc : Location) :
    (Location.arrow loc).toList =
      List.replicate loc.column.toNat ' '
        ++ '^' :: List.replicate (loc.len - 1) '~' := by
  have h1 : ("^" : String).data = ['^'] := rfl
  show (String.mk (List.replicate loc.column.toNat ' ') ++ "^"
      ++ String.mk (List.replicate (loc.len - 1) '~')).data = _
  simp [String.data_append, h1]

/-- The arrow underline is newline-free. -/
theorem arrow_nlfree (loc : Location) :
    ∀ c ∈ (Location.arrow loc).toList, ¬ c = nlc := by
  rw [arrow_toList]
  refine nlfree_append (fun c hc => ?_) (nlfree_cons (by decide) (fun c hc => ?_))
  · rw [List.eq_of_mem_replicate hc]; decide
  · rw [List.eq_of_mem_replicate hc]; decide

/-- The arrow underline holds a non-whitespace character. -/
theorem arrow_hasNonWS (loc : Location) :
    hasNonWS (Location.arrow loc).toList = true := by
  rw [arrow_toList, hasNonWS, List.any_eq_true]
  exact ⟨'^', List.mem_append.mpr (Or.inr (List.mem_cons_self _ _)), by decide⟩

/-- The rendered header equals the claim-side header string. -/
theorem header_toList (loc : Location) (s1 : String) :
    (("" ++ Location.str loc ++ ": " ++ "" ++ "error:" ++ ""
      ++ " " ++ s1)).toList =
    ((loc.path.fname ++ ":" ++ toString loc.line ++ ":" ++ toString loc.column
      ++ ": error: " ++ s1)).toList := by
  have tl : ∀ s : String, s.toList = s.data := fun _ => rfl
  have e1 : ("" : String).data = [] := rfl
  have e2 : (": " : String).data = [':', ' '] := rfl
  have e3 : ("error:" : String).data = ['e', 'r', 'r', 'o', 'r', ':'] := rfl
  have e4 : (" " : String).data = [' '] := rfl
  have e5 : (":" : String).data = [':'] := rfl
  have e6 : (": error: " : String).data
      = [':', ' ', 'e', 'r', 'r', 'o', 'r', ':', ' '] := rfl
  show (_ : String).data = (_ : String).data
  simp [Location.str, String.data_append, tl, e1, e2, e3, e4, e5, e6]

/-- The claim-side header string is newline-free whenever the path is. -/
theorem header_nlfree (loc : Location) (m : String)
    (hpath : ∀ c ∈ (loc.path.fname).toList, ¬ c = nlc) :
    ∀ c ∈ ((loc.path.fname ++ ":" ++ toString loc.line ++ ":"
      ++ toString loc.column ++ ": error: " ++ (splitOnceNl m).1)).toList,
      ¬ c = nlc := by
  have tl : ∀ s : String, s.toList = s.data := fun _ => rfl
  have e5 : (":" : String).data = [':'] := rfl
  have e6 : (": error: " : String).data
      = [':', ' ', 'e', 'r', 'r', 'o', 'r', ':', ' '] := rfl
  have hx : ((loc.path.fname ++ ":" ++ toString loc.line ++ ":"
      ++ toString loc.column ++ ": error: " ++ (splitOnceNl m).1)).toList =
      (loc.path.fname).toList ++ ([':'] ++ ((toString loc.line).toList ++ ([':']
        ++ ((toString loc.column).toList
        ++ ([':', ' ', 'e', 'r', 'r', 'o', 'r', ':', ' ']
        ++ ((splitOnceNl m).1).toList))))) := by
    show (_ : String).data = _
    simp [String.data_append, tl, e5, e6]
  rw [hx]
  refine nlfree_append hpath ?_
  refine nlfree_append (by decide) ?_
  refine nlfree_append (natToString_nlfree loc.line) ?_
  refine nlfree_append (by decide) ?_
  refine nlfree_append (intToString_nlfree loc.column) ?_
  exact nlfree_append (by decide) (summary_nlfree m)

/-- Splitting a string around an explicit newline at the list level. -/
theorem string_three_toList (a b : String) :
    (a ++ String.mk [nlc] ++ b).toList = a.toList ++ nlc :: b.toList := by
  have tl : ∀ s : String, s.toList = s.data := fun _ => rfl
  show (_ : String).data = _
  simp [String.data_append, tl]

/-- Splitting the header-description-tail shape at the list level. -/
theorem header_desc_toList (a d b : String) :
    ((a ++ String.mk [nlc] ++ "" ++ d ++ "") ++ String.mk [nlc] ++ b).toList
    = a.toList ++ nlc :: (d.toList ++ nlc :: b.toList) := by
  have tl : ∀ s : String, s.toList = s.data := fun _ => rfl
  show (_ : String).data = _
  simp [String.data_append, tl]

/-- Re-association of two interior newlines. -/
theorem append_nl_assoc (A D J : List Char) :
    A ++ nlc :: (D ++ nlc :: J) = (A ++ nlc :: D) ++ nlc :: J := by
  simp [List.append_assoc]

/-- The first line of a text whose newline-free head is split off. -/
theorem splitLines_head_of_nlfree (a b : List Char)
    (ha : ∀ c ∈ a, ¬ c = nlc) :
    (splitLines (a ++ nlc :: b)).head? = some a := by
  rw [splitLines_append_nl, splitLines_nlfree a ha]
  rfl

/-- The indented source-and-arrow block, written as joined lines. -/
theorem pyIndent_tail_toList (src : String) (ind : Nat) (loc : Location) :
    (pyIndent (String.mk (List.replicate ind ' '))
      (src ++ String.mk [nlc] ++ "" ++ Location.arrow loc ++ "")).toList
    = joinNl ((splitLines (src.toList ++ nlc :: (Location.arrow loc).toList)).map
        (fun l => if hasNonWS l then List.replicate ind ' ' ++ l else l)) := by
  have tl : ∀ s : String, s.toList = s.data := fun _ => rfl
  have hS : (src ++ String.mk [nlc] ++ "" ++ Location.arrow loc ++ "").toList
      = src.toList ++ nlc :: (Location.arrow loc).toList := by
    show (_ : String).data = _
    simp [String.data_append, tl]
  show joinNl ((splitLines ((src ++ String.mk [nlc] ++ ""
      ++ Location.arrow loc ++ "").toList)).map
      (fun l => if hasNonWS l then (String.mk (List.replicate ind ' ')).toList ++ l
        else l)) = _
  rw [hS]
  rfl

/-- The last line of any text ending in the indented source-and-arrow
block is the indented arrow. -/
theorem splitLines_last_indent (a : List Char) (src : List Char) (ind : Nat)
    (loc : Location) :
    (splitLines (a ++ nlc :: joinNl ((splitLines (src ++ nlc ::
        (Location.arrow loc).toList)).map
        (fun l => if hasNonWS l then List.replicate ind ' ' ++ l else l)))).getLast?
      = some (List.replicate ind ' '
          ++ (List.replicate loc.column.toNat ' '
          ++ '^' :: List.replicate (loc.len - 1) '~')) := by
  have hL0 : splitLines (src ++ nlc :: (Location.arrow loc).toList)
      = splitLines src ++ [(Location.arrow loc).toList] := by
    rw [splitLines_append_nl, splitLines_nlfree _ (arrow_nlfree loc)]
  have hfree : ∀ x ∈ (splitLines (src ++ nlc :: (Location.arrow loc).toList)).map
      (fun l => if hasNonWS l then List.replicate ind ' ' ++ l else l),
      ∀ c ∈ x, ¬ c = nlc := by
    intro x hx
    obtain ⟨y, hy, hxy⟩ := List.mem_map.mp hx
    have hyfree := splitLines_mem_nlfree _ y hy
    rw [← hxy]
    split
    · exact nlfree_append
        (fun c hc => by rw [List.eq_of_mem_replicate hc]; decide) hyfree
    · exact hyfree
  have hne : (splitLines (src ++ nlc :: (Location.arrow loc).toList)).map
      (fun l => if hasNonWS l then List.replicate ind ' ' ++ l else l) ≠ [] := by
    rw [Ne, List.map_eq_nil_iff]
    exact splitLines_ne_nil _
  rw [splitLines_append_nl, joinNl_splitLines _ hne hfree]
  rw [List.getLast?_append]
  simp only [hL0, List.map_append, List.map_cons, List.map_nil,
    List.getLast?_concat]
  show some (if hasNonWS (Location.arrow loc).toList
      then List.replicate ind ' ' ++ (Location.arrow loc).toList
      else (Location.arrow loc).toList) = _
  rw [if_pos (arrow_hasNonWS loc), arrow_toList]

/-- A rule applicable only to class files, detecting the letter A. -/
def vClsA : Validator := Validator.mk (Re.strLit ['A']) ["*.cls"] none "Found A"

/-- A rule applicable only to trigger files, detecting the letter B. -/
def vTriggerB : Validator := Validator.mk (Re.strLit ['B']) ["*.trigger"] none "Found B"

/-- C1: match.lines computes the applicable validators and stops early
when none applies, but then iterates over the unfiltered validators
parameter; on a class file, a rule restricted to trigger files still
produces a diagnostic as soon as some other rule is applicable, against
the specified behavior. This theorem evaluates the scanner at the failing
input: vTriggerB is not applicable to Foo.cls, yet scanning the line B
with the rule set containing the applicable vClsA and the inapplicable
vTriggerB yields exactly one diagnostic, produced by vTriggerB's invalid
pattern. -/
theorem c1_inapplicable_rule_fires :
    Validator.enabled vTriggerB (ApexPath.file "Foo.cls") = false ∧
    Validator.enabled vClsA (ApexPath.file "Foo.cls") = true ∧
    linesScan ["B"] (ApexPath.file "Foo.cls") true [vClsA, vTriggerB] =
      [Message.mk (Location.mk 1 (RMatch.mk 0 1 [] []) (ApexPath.file "Foo.cls"))
        "Found B" "B"] := by
  decide

/-- A rule whose glob filter list is empty. -/
def vNoFilters : Validator := Validator.mk (Re.strLit ['A']) [] none ""

/-- C2 counterexample: for a rule with an empty filter list and an
ordinary (non-stdin) path, enabled returns false, not true as the claim
states; Python's bool of an empty tuple short-circuits the conjunction. -/
theorem c2_empty_filters_counterexample :
    vNoFilters.filenames = [] ∧
    ApexPath.isStdIn (ApexPath.file "Foo.cls") = false ∧
    Validator.enabled vNoFilters (ApexPath.file "Foo.cls") = false := by
  decide

/-- C2 (amended): enabled returns true exactly when the path is the
standard-input pseudo-path, or the rule's filter list is non-empty and
the path's filename matches at least one declared glob; an empty filter
list disables the rule for ordinary files. -/
theorem c2_enabled_iff (v : Validator) (path : ApexPath) :
    Validator.enabled v path = true ↔
    (path.isStdIn = true ∨ (v.filenames ≠ [] ∧
      ∃ pat ∈ v.filenames, globMatch pat.toList path.fname.toList = true)) := by
  rw [Validator.enabled]
  rw [Bool.or_eq_true, Bool.and_eq_true, List.any_eq_true]
  rw [Bool.not_eq_true', List.isEmpty_eq_false_iff_exists_mem]
  constructor
  · rintro (h | ⟨⟨x, hx⟩, pat, hpat, hmat⟩)
    · exact Or.inl h
    · exact Or.inr ⟨fun hnil => by rw [hnil] at hx; exact absurd hx (List.not_mem_nil x),
        pat, hpat, hmat⟩
  · rintro (h | ⟨hne, pat, hpat, hmat⟩)
    · exact Or.inl h
    · exact Or.inr ⟨⟨pat, hpat⟩, pat, hpat, hmat⟩

/-- C5: the diagnostic span is the extent of the cursor capture group
when the pattern has one and it matched: the column is the group's start
and the length its extent; when the pattern defines no cursor group, the
span is zero-length at the whole match's start. -/
theorem c5_cursor_span (loc : Location) :
    (∀ s e : Nat, loc.mtch.spanOf "cursor" = some (some (s, e)) →
      loc.column = (s : Int) ∧ loc.len = e - s) ∧
    (loc.mtch.spanOf "cursor" = none →
      loc.column = (loc.mtch.start : Int) ∧ loc.len = 0) := by
  constructor
  · intro s e h
    rw [Location.column, Location.len, h]
    exact ⟨rfl, rfl⟩
  · intro h
    rw [Location.column, Location.len, h]
    exact ⟨rfl, rfl⟩

/-- Witness for C5 at a concrete match with a bound cursor group. -/
theorem c5_cursor_span_witness :
    (Location.mk 1 (RMatch.mk 2 5 [("cursor", 2, 5)] ["cursor"])
      (ApexPath.file "Foo.cls")).mtch.spanOf "cursor" = some (some (2, 5)) ∧
    ((Location.mk 1 (RMatch.mk 2 5 [("cursor", 2, 5)] ["cursor"])
      (ApexPath.file "Foo.cls")).column = (2 : Int) ∧
     (Location.mk 1 (RMatch.mk 2 5 [("cursor", 2, 5)] ["cursor"])
      (ApexPath.file "Foo.cls")).len = 3) :=
  ⟨by decide, (c5_cursor_span _).1 2 5 (by decide)⟩

/-- C7: when suppression is enabled and the rule's declared suppress
pattern matches the line, the rule yields no diagnostics for that line at
all; with suppression disabled, the same line yields the usual one error
per match of the invalid pattern. -/
theorem c7_suppress_all_or_nothing (v : Validator) (line : String) (sp : Re)
    (hsp : v.suppress = some sp) :
    (searchHit sp line.toList = true → v.errors line true = []) ∧
    v.errors line false =
      (finditer v.invalid line.toList).map (fun m => Error.mk m v.message) := by
  constructor
  · intro hhit
    rw [Validator.errors, if_pos]
    rw [Bool.and_eq_true]
    exact ⟨rfl, by rw [Validator.suppressHit, hsp]; exact hhit⟩
  · rw [Validator.errors, if_neg]
    rw [Bool.and_eq_true]
    rintro ⟨h, -⟩
    exact absurd h (by decide)

/-- A rule detecting FOO whose suppress pattern is the token ok inside a
comment. -/
def vSupFoo : Validator :=
  Validator.mk (Re.strLit "FOO".toList) ["*.cls"]
    (some (commentRe (Re.strLit "ok".toList))) "Found FOO"

/-- Witness for C7 on a line whose trailing comment holds the token. -/
theorem c7_suppress_witness :
    vSupFoo.errors "FOO // ok" true = [] ∧
    vSupFoo.errors "FOO // ok" false =
      (finditer vSupFoo.invalid "FOO // ok".toList).map
        (fun m => Error.mk m vSupFoo.message) :=
  ⟨(c7_suppress_all_or_nothing vSupFoo "FOO // ok" _ rfl).1 (by decide),
   (c7_suppress_all_or_nothing vSupFoo "FOO // ok" _ rfl).2⟩

/-- C10: the driver exits with status 1 whenever at least one finding was
produced, even alongside operational errors; with 2 exactly when there is
at least one operational error and no finding; and with 0 exactly when
there is neither. -/
theorem c10_exit_status {E : Type} (results : List (E ⊕ String)) :
    ((∃ s, Sum.inr s ∈ results) → mainExit results = 1) ∧
    (mainExit results = 2 ↔
      ((∃ e, Sum.inl e ∈ results) ∧ ¬ ∃ s, Sum.inr s ∈ results)) ∧
    (mainExit results = 0 ↔
      ((¬ ∃ e, Sum.inl e ∈ results) ∧ ¬ ∃ s, Sum.inr s ∈ results)) := by
  have hr : (lintSplit results).1 = [] ↔ ¬ ∃ s, Sum.inr s ∈ results := by
    rw [lintSplit]
    simp only [List.filterMap_eq_nil_iff]
    constructor
    · rintro h ⟨s, hs⟩
      have := h _ hs
      simp [Sum.getRight?] at this
    · intro h r hrm
      cases r with
      | inl e => rfl
      | inr s => exact absurd ⟨s, hrm⟩ h
  have hl : (lintSplit results).2 = [] ↔ ¬ ∃ e, Sum.inl e ∈ results := by
    rw [lintSplit]
    simp only [List.filterMap_eq_nil_iff]
    constructor
    · rintro h ⟨e, hs⟩
      have := h _ hs
      simp [Sum.getLeft?] at this
    · intro h r hrm
      cases r with
      | inl e => exact absurd ⟨e, hrm⟩ h
      | inr s => rfl
  by_cases hms : (lintSplit results).1 = []
  · by_cases hes : (lintSplit results).2 = []
    · have hm : mainExit results = 0 := by simp [mainExit, hms, hes]
      rw [hm]
      exact ⟨fun hex => absurd hex (hr.mp hms),
        ⟨fun h => absurd h (by omega), fun h => absurd h.1 (hl.mp hes)⟩,
        ⟨fun _ => ⟨hl.mp hes, hr.mp hms⟩, fun _ => rfl⟩⟩
    · have hm : mainExit results = 2 := by
        simp [mainExit, hms, List.isEmpty_iff, hes]
      rw [hm]
      have hex : ∃ e, Sum.inl e ∈ results := by
        by_contra hne
        exact hes (hl.mpr hne)
      exact ⟨fun hx => absurd hx (hr.mp hms),
        ⟨fun _ => ⟨hex, hr.mp hms⟩, fun _ => rfl⟩,
        ⟨fun h => absurd h (by omega), fun h => absurd hex h.1⟩⟩
  · have hm : mainExit results = 1 := by
      simp [mainExit, List.isEmpty_iff, hms]
    rw [hm]
    have hex : ∃ s, Sum.inr s ∈ results := by
      by_contra hne
      exact hms (hr.mpr hne)
    exact ⟨fun _ => rfl,
      ⟨fun h => absurd h (by omega), fun h => absurd hex h.2⟩,
      ⟨fun h => absurd h (by omega), fun h => absurd hex h.2⟩⟩

/-- Witness for C10 at concrete result streams: a finding beats an error,
an error alone exits 2, and nothing exits 0. -/
theorem c10_exit_status_witness :
    mainExit [Sum.inr "m", Sum.inl (0 : Nat)] = 1 ∧
    mainExit [Sum.inl (0 : Nat)] = 2 ∧
    mainExit ([] : List (Nat ⊕ String)) = 0 :=
  ⟨(c10_exit_status _).1 ⟨"m", by simp⟩,
   (c10_exit_status _).2.1.mpr ⟨⟨0, by simp⟩, by simp⟩,
   (c10_exit_status _).2.2.mpr ⟨by simp, by simp⟩⟩

/-- A rule whose invalid pattern has an optional cursor group, written
as the regex (?:(?P&lt;cursor&gt;F)|)B. -/
def vOptCursor : Validator :=
  Validator.mk (Re.seq (Re.alt (Re.group "cursor" (Re.ch 'F')) Re.eps) (Re.ch 'B'))
    ["*.cls"] none "msg"

/-- C6 counterexample: when the invalid pattern's cursor group does not
participate in the match, Python reports -1 for its start, and the line
scanner produces a diagnostic whose column is -1, violating the claimed
0 &le; column: scanning the line B with the optional-cursor rule yields
exactly one diagnostic, of column -1. -/
theorem c6_negative_column_counterexample :
    (linesScan ["B"] (ApexPath.file "Foo.cls") true [vOptCursor]).map
      (fun msg => msg.location.column) = [-1] := by
  decide

/-- C6 (amended): every diagnostic the line scanner produces has a
non-negative length, and, whenever its match's cursor group is not a
defined-but-non-participating group, a non-negative column with
column + len within the source line text. -/
theorem c6_span_within_line (ls : List String) (path : ApexPath) (sup : Bool)
    (vs : List Validator) (msg : Message) (h : msg ∈ linesScan ls path sup vs)
    (hcursor : msg.location.mtch.spanOf "cursor" ≠ some none) :
    0 ≤ msg.location.len ∧ 0 ≤ msg.location.column ∧
    msg.location.column.toNat + msg.location.len ≤ msg.source.length := by
  obtain ⟨v, hv, lineno, line, henum, hguard, e, he, heq⟩ := linesScan_mem h
  obtain ⟨hfind, hmsg⟩ := errors_mem he
  have hb := finditer_mem hfind
  have hlinelen : line.toList.length = line.length := rfl
  subst heq
  cases hsp : e.mtch.spanOf "cursor" with
  | none =>
    have hcol : (Message.mk (Location.mk lineno e.mtch path) e.message
        line).location.column = (e.mtch.start : Int) := by
      simp [Location.column, hsp]
    have hlen0 : (Message.mk (Location.mk lineno e.mtch path) e.message
        line).location.len = 0 := by
      simp [Location.len, hsp]
    rw [hcol, hlen0]
    refine ⟨le_refl _, Int.natCast_nonneg _, ?_⟩
    have hst : e.mtch.start ≤ line.toList.length := le_trans hb.1 hb.2.1
    simp only [Int.toNat_natCast]
    omega
  | some o =>
    cases o with
    | none => exact absurd hsp hcursor
    | some se =>
      obtain ⟨s2, e2⟩ := se
      have hsp0 := hsp
      rw [RMatch.spanOf] at hsp0
      split at hsp0
      · next hmem =>
        rw [Option.some.injEq, Option.map_eq_some'] at hsp0
        obtain ⟨entry, hfindq, hval⟩ := hsp0
        have hginfo := hb.2.2.2 entry (List.mem_of_find?_eq_some hfindq)
        have hval2 : entry.2 = (s2, e2) := hval
        have hcol : (Message.mk (Location.mk lineno e.mtch path) e.message
            line).location.column = (s2 : Int) := by
          simp [Location.column, hsp]
        have hlen : (Message.mk (Location.mk lineno e.mtch path) e.message
            line).location.len = e2 - s2 := by
          simp [Location.len, hsp]
        rw [hcol, hlen]
        refine ⟨Nat.zero_le _, Int.natCast_nonneg _, ?_⟩
        rw [hval2] at hginfo
        simp only [Int.toNat_natCast]
        have he2 : e2 ≤ e.mtch.stop := hginfo.2.2
        have hstopL : e.mtch.stop ≤ line.toList.length := hb.2.1
        have hs2e2 : s2 ≤ e2 := hginfo.2.1
        omega
      · exact absurd hsp0 (by simp)

/-- A rule whose whole invalid pattern is the cursor group around FOO. -/
def vCursorFoo : Validator :=
  Validator.mk (Re.group "cursor" (Re.strLit "FOO".toList)) ["*.cls"] none "Found FOO"

/-- Witness for C6 on a concrete scan whose cursor group participates. -/
theorem c6_span_within_line_witness :
    (Message.mk (Location.mk 1 (RMatch.mk 0 3 [("cursor", 0, 3)] ["cursor"])
        (ApexPath.file "Foo.cls")) "Found FOO" "FOO" ∈
      linesScan ["FOO"] (ApexPath.file "Foo.cls") true [vCursorFoo]) ∧
    (0 ≤ (Message.mk (Location.mk 1 (RMatch.mk 0 3 [("cursor", 0, 3)] ["cursor"])
        (ApexPath.file "Foo.cls")) "Found FOO" "FOO").location.len ∧
     0 ≤ (Message.mk (Location.mk 1 (RMatch.mk 0 3 [("cursor", 0, 3)] ["cursor"])
        (ApexPath.file "Foo.cls")) "Found FOO" "FOO").location.column ∧
     (Message.mk (Location.mk 1 (RMatch.mk 0 3 [("cursor", 0, 3)] ["cursor"])
        (ApexPath.file "Foo.cls")) "Found FOO" "FOO").location.column.toNat +
       (Message.mk (Location.mk 1 (RMatch.mk 0 3 [("cursor", 0, 3)] ["cursor"])
        (ApexPath.file "Foo.cls")) "Found FOO" "FOO").location.len ≤
       (Message.mk (Location.mk 1 (RMatch.mk 0 3 [("cursor", 0, 3)] ["cursor"])
        (ApexPath.file "Foo.cls")) "Found FOO" "FOO").source.length) :=
  ⟨by decide, c6_span_within_line ["FOO"] (ApexPath.file "Foo.cls") true
    [vCursorFoo] _ (by decide) (by decide)⟩

/-- C8: with suppression enabled (the default), a line whose
newline-stripped text matches the NOQA pattern (the case-insensitive
token noqa inside a comment) contributes no diagnostic from any rule:
every message the scanner yields carries a different line number. -/
theorem c8_noqa_skips_line (ls : List String) (path : ApexPath)
    (vs : List Validator) (i : Nat) (hi : i < ls.length)
    (hnoqa : searchHit NOQA (rstripNl ls[i]).toList = true) :
    ∀ msg ∈ linesScan ls path true vs, msg.location.line ≠ i + 1 := by
  intro msg hmsg heq
  obtain ⟨v, hv, lineno, line, henum, hguard, e, he, hmeq⟩ := linesScan_mem hmsg
  have hline : lineno = i + 1 := by
    rw [hmeq] at heq
    exact heq
  obtain ⟨h1, h2, h3⟩ := List.mem_enumFrom henum
  subst hline
  have hb2 : i + 1 - 1 < (List.map rstripNl ls).length := by omega
  have h4 : (List.map rstripNl ls)[i + 1 - 1]? = some line := by
    rw [List.getElem?_eq_getElem hb2, h3]
  rw [show i + 1 - 1 = i by omega, List.getElem?_map,
    List.getElem?_eq_getElem hi] at h4
  have h5 : line = rstripNl ls[i] := by
    simpa using h4.symm
  subst h5
  apply hguard
  rw [Bool.and_eq_true]
  exact ⟨rfl, hnoqa⟩

/-- A plain rule detecting FOO in class files. -/
def vPlainFoo : Validator :=
  Validator.mk (Re.strLit "FOO".toList) ["*.cls"] none "Found FOO"

/-- Witness for C8 on a concrete two-line file whose first line carries a
noqa comment. -/
theorem c8_noqa_skips_line_witness :
    searchHit NOQA (rstripNl (["FOO // noqa", "FOO"][0])).toList = true ∧
    (∀ msg ∈ linesScan ["FOO // noqa", "FOO"] (ApexPath.file "Foo.cls") true
      [vPlainFoo], msg.location.line ≠ 0 + 1) :=
  ⟨by decide, c8_noqa_skips_line ["FOO // noqa", "FOO"] (ApexPath.file "Foo.cls")
    [vPlainFoo] 0 (by decide) (by decide)⟩

/-- C3 counterexample: on the line made of one quote followed by FOO, the
target FOO occurs at position 1 and lies inside no syntactically valid
balanced single-quoted string (there is none on the line), yet the
not_string pattern for FOO finds no match, because the lone quote cannot
be consumed by the anchored run of complete strings. -/
theorem c3_unterminated_quote_counterexample :
    occursAt "FOO".toList (qc :: "FOO".toList) 1 ∧
    ¬ insideOcc (qc :: "FOO".toList) 1 ("FOO".toList).length ∧
    searchHit (notString (Re.strLit "FOO".toList)) (qc :: "FOO".toList) = false := by
  decide

/-- C3 (amended): the not_string pattern of a non-empty literal target
matches exactly when the target occurs at a position whose entire prefix
consists of complete single-quoted strings and quote-free runs (a prefix
the quote scanner accepts); every such position lies outside every
balanced single-quoted string, so the pattern never matches the target
inside one. -/
theorem c3_not_string_outside_strings (t l : List Char) (ht : t ≠ []) :
    (searchHit (notString (Re.strLit t)) l = true ↔
      ∃ p, occursAt t l p ∧ scanFrom .out (l.take p) = .out) ∧
    ∀ p, scanFrom .out (l.take p) = .out → ¬ insideOcc l p t.length := by
  refine ⟨notString_hit_iff l ht, fun p h => scan_out_not_inside h⟩

/-- Witness for C3 on the line FOO followed by a quoted string. -/
theorem c3_not_string_outside_strings_witness :
    ("FOO".toList ≠ ([] : List Char)) ∧
    ((searchHit (notString (Re.strLit "FOO".toList))
        ("FOO ".toList ++ [qc] ++ "...".toList ++ [qc]) = true ↔
      ∃ p, occursAt "FOO".toList ("FOO ".toList ++ [qc] ++ "...".toList ++ [qc]) p ∧
        scanFrom .out (("FOO ".toList ++ [qc] ++ "...".toList ++ [qc]).take p) = .out) ∧
    ∀ p, scanFrom .out (("FOO ".toList ++ [qc] ++ "...".toList ++ [qc]).take p) = .out →
      ¬ insideOcc ("FOO ".toList ++ [qc] ++ "...".toList ++ [qc]) p
        ("FOO".toList).length) :=
  ⟨by decide, c3_not_string_outside_strings "FOO".toList _ (by decide)⟩

/-- C4: the comment pattern of a target matches when the target follows
two slashes on the line or sits inside a block comment before its closer
(both after any quote-free lead-in); it never matches on a line without a
slash, in particular when the target appears there outside any comment;
it never matches when the line is one single-quoted string, even one
whose contents are shaped like a comment; and on the concrete line where
FOO precedes the comment opener it does not match. -/
theorem c4_comment_pattern_semantics :
    (∀ X u v w : List Char, (∀ c ∈ u, ¬ c = qc) → (∀ c ∈ v, ¬ c = nlc) →
      searchHit (commentRe (Re.strLit X)) (u ++ ('/' :: '/' :: (v ++ X)) ++ w)
        = true) ∧
    (∀ X u b m w : List Char, (∀ c ∈ u, ¬ c = qc) → (∀ c ∈ b, ¬ c = '*') →
      (∀ c ∈ m, ¬ c = nlc) →
      searchHit (commentRe (Re.strLit X))
        (u ++ ('/' :: '*' :: (b ++ (X ++ (m ++ ['*', '/'])))) ++ w) = true) ∧
    (∀ (r : Re) (l : List Char), (∀ c ∈ l, ¬ c = '/') →
      searchHit (commentRe r) l = false) ∧
    (∀ (r : Re) (s : List Char), (∀ c ∈ s, ¬ c = qc) →
      searchHit (commentRe r) (qc :: (s ++ [qc])) = false) ∧
    searchHit (commentRe (Re.strLit "FOO".toList)) "FOO // bar".toList = false :=
  ⟨fun _ u v w hu hv => comment_hit_line hu hv,
   fun _ u b m w hu hb hm => comment_hit_block hu hb hm,
   fun _ l h => comment_noslash h,
   fun _ s hs => comment_in_string hs,
   by decide⟩

/-- Witness for C4 at concrete lines for both comment shapes. -/
theorem c4_comment_pattern_semantics_witness :
    searchHit (commentRe (Re.strLit "FOO".toList))
      ("x ".toList ++ ('/' :: '/' :: (" ".toList ++ "FOO".toList)) ++ []) = true ∧
    searchHit (commentRe (Re.strLit "FOO".toList))
      ([] ++ ('/' :: '*' :: (" ".toList ++ ("FOO".toList ++ (" ".toList
        ++ ['*', '/'])))) ++ []) = true ∧
    searchHit (commentRe (Re.strLit "FOO".toList)) "FOO".toList = false ∧
    searchHit (commentRe (Re.strLit "FOO".toList))
      (qc :: ("// FOO".toList ++ [qc])) = false :=
  ⟨c4_comment_pattern_semantics.1 "FOO".toList "x ".toList " ".toList []
      (by decide) (by decide),
   c4_comment_pattern_semantics.2.1 "FOO".toList [] " ".toList " ".toList []
      (by decide) (by decide) (by decide),
   c4_comment_pattern_semantics.2.2.1 (Re.strLit "FOO".toList) "FOO".toList
      (by decide),
   c4_comment_pattern_semantics.2.2.2.1 (Re.strLit "FOO".toList) "// FOO".toList
      (by decide)⟩

/-- C9 counterexample: a scanner-produced diagnostic whose cursor group
did not participate carries column -1, and its rendered underline has no
leading space beyond the indent prefix rather than the claimed exactly
column many, which would be -1 of them. -/
theorem c9_negative_column_underline_counterexample :
    ∃ msg ∈ linesScan ["B"] (ApexPath.file "Foo.cls") true [vOptCursor],
      msg.location.column = -1 ∧
      (splitLines (Message.render msg 1 none 0).toList).getLast? =
        some [' ', '^'] := by
  decide

/-- C9 (amended): rendering a diagnostic without a terminal (non-color mode) at any
non-negative verbosity yields, whenever the path text holds no line
break, a first line of the form path:line:column: error: summary, and a
last line that is the underline: the indent prefix, then column-many
leading spaces (clamped at zero), then a caret followed by len - 1
tildes, so a one-character match ends in a lone caret and an N-character
match in a caret with N - 1 tildes. -/
theorem c9_render_layout (msg : Message) (ind : Nat) (verbose : Int)
    (hv : 0 ≤ verbose)
    (hpath : ∀ c ∈ (msg.location.path.fname).toList, ¬ c = nlc) :
    (splitLines (Message.render msg ind none verbose).toList).head? =
      some ((msg.location.path.fname ++ ":" ++ toString msg.location.line ++ ":"
          ++ toString msg.location.column ++ ": error: "
          ++ (splitOnceNl msg.message).1).toList) ∧
    (splitLines (Message.render msg ind none verbose).toList).getLast? =
      some (List.replicate ind ' '
          ++ (List.replicate msg.location.column.toNat ' '
          ++ '^' :: List.replicate (msg.location.len - 1) '~')) := by
  have hv2 : verbose ≥ 0 := hv
  have hfreeH : ∀ c ∈ (("" ++ Location.str msg.location ++ ": " ++ "" ++ "error:"
      ++ "" ++ " " ++ (splitOnceNl msg.message).1)).toList, ¬ c = nlc := by
    rw [header_toList]
    exact header_nlfree msg.location msg.message hpath
  rcases hb : (splitOnceNl msg.message).2 with _ | desc
  · have hren : Message.render msg ind none verbose =
        ("" ++ Location.str msg.location ++ ": " ++ "" ++ "error:" ++ ""
          ++ " " ++ (splitOnceNl msg.message).1)
        ++ String.mk [nlc]
        ++ pyIndent (String.mk (List.replicate ind ' '))
          (msg.source ++ String.mk [nlc] ++ ""
            ++ Location.arrow msg.location ++ "") := by
      simp only [Message.render, Message.splitMessage, Option.getD, DumbTerm, hb,
        if_pos hv2]
    constructor
    · rw [hren, string_three_toList, splitLines_head_of_nlfree _ _ hfreeH]
      exact congrArg some (header_toList msg.location ((splitOnceNl msg.message).1))
    · rw [hren, string_three_toList, pyIndent_tail_toList]
      exact splitLines_last_indent _ msg.source.toList ind msg.location
  · by_cases hvp : verbose > 0
    · have hren : Message.render msg ind none verbose =
          (("" ++ Location.str msg.location ++ ": " ++ "" ++ "error:" ++ ""
              ++ " " ++ (splitOnceNl msg.message).1)
            ++ String.mk [nlc] ++ ""
            ++ pyIndent (String.mk (List.replicate (ind * 2) ' ')) desc ++ "")
          ++ String.mk [nlc]
          ++ pyIndent (String.mk (List.replicate ind ' '))
            (msg.source ++ String.mk [nlc] ++ ""
              ++ Location.arrow msg.location ++ "") := by
        simp only [Message.render, Message.splitMessage, Option.getD, DumbTerm, hb,
          if_pos hvp, if_pos hv2]
      constructor
      · rw [hren, header_desc_toList, splitLines_head_of_nlfree _ _ hfreeH]
        exact congrArg some
          (header_toList msg.location ((splitOnceNl msg.message).1))
      · rw [hren, header_desc_toList, pyIndent_tail_toList, append_nl_assoc]
        exact splitLines_last_indent _ msg.source.toList ind msg.location
    · have hren : Message.render msg ind none verbose =
          ("" ++ Location.str msg.location ++ ": " ++ "" ++ "error:" ++ ""
            ++ " " ++ (splitOnceNl msg.message).1)
          ++ String.mk [nlc]
          ++ pyIndent (String.mk (List.replicate ind ' '))
            (msg.source ++ String.mk [nlc] ++ ""
              ++ Location.arrow msg.location ++ "") := by
        simp only [Message.render, Message.splitMessage, Option.getD, DumbTerm, hb,
          if_neg hvp, if_pos hv2]
      constructor
      · rw [hren, string_three_toList, splitLines_head_of_nlfree _ _ hfreeH]
        exact congrArg some
          (header_toList msg.location ((splitOnceNl msg.message).1))
      · rw [hren, string_three_toList, pyIndent_tail_toList]
        exact splitLines_last_indent _ msg.source.toList ind msg.location

/-- Witness for C9 on a concrete three-character match at column 0. -/
theorem c9_render_layout_witness :
    ((0 : Int) ≤ 0 ∧
      (∀ c ∈ (((Message.mk (Location.mk 1 (RMatch.mk 0 3 [] [])
          (ApexPath.file "Foo.cls")) "Found FOO"
          "FOO").location.path.fname)).toList, ¬ c = nlc)) ∧
    ((splitLines (Message.render (Message.mk (Location.mk 1 (RMatch.mk 0 3 [] [])
          (ApexPath.file "Foo.cls")) "Found FOO" "FOO") 1 none 0).toList).head? =
      some (((Message.mk (Location.mk 1 (RMatch.mk 0 3 [] [])
          (ApexPath.file "Foo.cls")) "Found FOO"
          "FOO").location.path.fname ++ ":"
          ++ toString (Message.mk (Location.mk 1 (RMatch.mk 0 3 [] [])
          (ApexPath.file "Foo.cls")) "Found FOO" "FOO").location.line ++ ":"
          ++ toString (Message.mk (Location.mk 1 (RMatch.mk 0 3 [] [])
          (ApexPath.file "Foo.cls")) "Found FOO" "FOO").location.column
          ++ ": error: "
          ++ (splitOnceNl (Message.mk (Location.mk 1 (RMatch.mk 0 3 [] [])
          (ApexPath.file "Foo.cls")) "Found FOO" "FOO").message).1).toList) ∧
    (splitLines (Message.render (Message.mk (Location.mk 1 (RMatch.mk 0 3 [] [])
          (ApexPath.file "Foo.cls")) "Found FOO" "FOO") 1 none 0).toList).getLast?
      = some (List.replicate 1 ' '
          ++ (List.replicate (Message.mk (Location.mk 1 (RMatch.mk 0 3 [] [])
          (ApexPath.file "Foo.cls")) "Found FOO"
          "FOO").location.column.toNat ' '
          ++ '^' :: List.replicate ((Message.mk (Location.mk 1 (RMatch.mk 0 3 [] [])
          (ApexPath.file "Foo.cls")) "Found FOO"
          "FOO").location.len - 1) '~'))) :=
  ⟨⟨by decide, by decide⟩,
    c9_render_layout (Message.mk (Location.mk 1 (RMatch.mk 0 3 [] [])
      (ApexPath.file "Foo.cls")) "Found FOO" "FOO") 1 0 (by decide) (by decide)⟩

end Apexlint
